import Mathlib

/-!
# Verification of the question-generation core

A shallow embedding, in Lean 4, of the core algorithms of the repository:
the topic-quota computation (`calculateTopicQuestions`), the structural
question validator (`validateQuestionAnswer`) and the pre-persistence
options gate, the API-key pool manager (`setGeminiApiKeys`,
`getNextGeminiKey`, `markKeyError`, `markKeySuccess`), the completion
client retry loop (`callGeminiAPI`), the multi-strategy JSON parser driver
(`parseJsonRobust`), and the JSON sanitizer (`sanitizeJsonString`).

Conventions of the embedding:
* JavaScript strings are modelled as `List Char` (wrapped in `String` at
  the API boundary); regex `replace` calls are modelled by explicit
  left-to-right scans that match the `/g`-flag semantics (leftmost match,
  non-overlapping, replacement text is not rescanned).
* JavaScript numbers holding topic weights are modelled as `ℚ`;
  `Math.round` is `⌊x + 1/2⌋` (round half toward +∞), which is exact for
  the rational model.
* The external collaborators (the network `fetch`, `JSON.parse`,
  `Date.now()`) are parameters of the embedded functions: a provider
  response sequence, parse outcomes, and a `now` timestamp.
-/

namespace QuotaCalc

/-- JavaScript `Math.round` on a nonnegative rational: round half up. -/
def jsRound (q : ℚ) : ℤ := ⌊q + 1/2⌋

/-- A topic as consumed by `calculateTopicQuestions`: only the fields the
computation reads (`weightage`; `name` kept for shape). A `null` weightage
behaves exactly like `0` in the source (`topic.weightage || 0`), so the
model uses a plain rational. -/
structure GTopic where
  name : String
  weightage : ℚ
deriving DecidableEq, Repr

/-- Result record of `calculateTopicQuestions`: each topic paired with its
`questionsToGenerate`, plus the returned totals. -/
structure CalcResult where
  topics : List (GTopic × ℤ)
  totalQuestionsToGenerate : ℕ
  extraQuestionsCount : ℕ
deriving DecidableEq, Repr

/-- Embedding of `calculateTopicQuestions` (src/unnamed/part_001, lines
213–249).  Topics are split into weighted (`weightage > 0`) and
zero-weighted; `totalWeightage` is the reduce over the *weighted* list with
the source's `topic.weightage || 0.02` fallback kept verbatim (the `if`
below); zero-weight topics get `1` question iff `totalQuestions ≥ 500`,
weighted topics get `max(1, round(w / totalWeightage × total))`. -/
def calculateTopicQuestions (topics : List GTopic) (totalQuestions : ℕ) : CalcResult :=
  let topicsWithWeightage := topics.filter (fun t => 0 < t.weightage)
  let topicsWithoutWeightage := topics.filter (fun t => t.weightage = 0)
  let totalWeightage :=
    (topicsWithWeightage.map (fun t => if t.weightage = 0 then (2/100 : ℚ) else t.weightage)).sum
  let shouldGenerateForZeroWeightage := 500 ≤ totalQuestions
  let extraQuestionsCount := if shouldGenerateForZeroWeightage then topicsWithoutWeightage.length else 0
  let result := topics.map (fun t =>
    if t.weightage = 0 then
      (t, if shouldGenerateForZeroWeightage then (1 : ℤ) else 0)
    else
      (t, max 1 (jsRound (t.weightage / totalWeightage * totalQuestions))))
  ⟨result, totalQuestions + extraQuestionsCount, extraQuestionsCount⟩

/-- The denominator actually used by the source: the sum of the weights of
the positively-weighted topics only. -/
def posWeightSum (topics : List GTopic) : ℚ :=
  ((topics.filter (fun t => 0 < t.weightage)).map (fun t => t.weightage)).sum

/-- Modelled from the spec: the denominator as the claim describes it, with
every zero-weight topic contributing a nominal `0.02` to the sum. -/
def claimTotalWeight (topics : List GTopic) : ℚ :=
  posWeightSum topics + (2/100 : ℚ) * (topics.filter (fun t => t.weightage = 0)).length

end QuotaCalc

namespace Validation

/-- The fields of `ExtractedQuestion` that `validateQuestionAnswer` and the
pre-persistence options gate read.  Optional fields model possibly-missing
JS properties. -/
structure ExtractedQuestion where
  question_statement : Option String
  question_type : Option String
  options : Option (List String)
deriving DecidableEq, Repr

/-- JS `String.prototype.trim` whitespace (also the `\s` class used by the
sanitizer's regexes): ASCII whitespace, NBSP, Unicode space separators,
line/paragraph separators and the BOM. -/
def jsWhitespace (c : Char) : Prop :=
  c.toNat = 9 ∨ c.toNat = 10 ∨ c.toNat = 11 ∨ c.toNat = 12 ∨ c.toNat = 13 ∨
  c.toNat = 32 ∨ c.toNat = 160 ∨ c.toNat = 5760 ∨
  (8192 ≤ c.toNat ∧ c.toNat ≤ 8202) ∨
  c.toNat = 8232 ∨ c.toNat = 8233 ∨ c.toNat = 8239 ∨ c.toNat = 8287 ∨
  c.toNat = 12288 ∨ c.toNat = 65279

instance : DecidablePred jsWhitespace := fun c => by
  unfold jsWhitespace; infer_instance

/-- JS `trim` on the character-list model. -/
def jsTrimList (l : List Char) : List Char :=
  ((l.dropWhile (fun c => decide (jsWhitespace c))).reverse.dropWhile
    (fun c => decide (jsWhitespace c))).reverse

/-- JS `String.prototype.trim`. -/
def jsTrim (s : String) : String := ⟨jsTrimList s.data⟩

/-- Embedding of `validateQuestionAnswer`
(src/src/components/DiagramRenderer.tsx, lines 2229–2246): returns the
`isValid` flag and the reason string.  A missing statement or a statement
that trims to the empty string is rejected; the type must be one of the
four literals; MCQ/MSQ must have a non-empty options array (the source
tests `!question.options || question.options.length === 0`). -/
def validateQuestionAnswer (q : ExtractedQuestion) : Bool × String :=
  match q.question_statement with
  | none => (false, "Empty question statement")
  | some s =>
    if (jsTrim s).length = 0 then (false, "Empty question statement")
    else
      match q.question_type with
      | none => (false, "Invalid question type")
      | some ty =>
        if ¬ (ty = "MCQ" ∨ ty = "MSQ" ∨ ty = "NAT" ∨ ty = "Subjective") then
          (false, "Invalid question type")
        else if (ty = "MCQ" ∨ ty = "MSQ") ∧ (q.options = none ∨ q.options = some []) then
          (false, "MCQ/MSQ questions require options")
        else
          (true, "Question passes basic validation")

/-- The additional pre-persistence options check performed by the
generation loop (src/unnamed/part_001, lines 674–682): for MCQ/MSQ the
options list must exist and have exactly 4 entries. -/
def optionsCountOk (questionType : String) (q : ExtractedQuestion) : Bool :=
  if questionType = "MCQ" ∨ questionType = "MSQ" then
    match q.options with
    | some os => os.length = 4
    | none => false
  else
    true

/-- The combined structural gate applied before persistence: the inline
validator followed by the options-count check. -/
def structuralGateAccepts (questionType : String) (q : ExtractedQuestion) : Bool :=
  (validateQuestionAnswer q).1 && optionsCountOk questionType q

end Validation

namespace KeyPool

/-- Embedding of the `ApiKeyState` record
(src/src/components/DiagramRenderer.tsx, lines 1260–1267).  `lastUsedAt`
stores the `Date.now()` value passed in by the caller. -/
structure ApiKeyState where
  key : String
  usageCount : ℕ
  errorCount : ℕ
  lastError : Option String
  lastUsedAt : Option ℕ
  isActive : Bool
deriving DecidableEq, Repr

/-- The module-level mutable pool: `API_KEY_STATES` plus
`currentKeyIndex`. -/
structure PoolState where
  states : List ApiKeyState
  currentKeyIndex : ℕ
deriving DecidableEq, Repr

/-- Embedding of `setGeminiApiKeys` (lines 1273–1294): trims, discards
blanks, fails when nothing remains, otherwise builds fresh states and
resets the cursor. -/
def setGeminiApiKeys (keys : List String) : Except String PoolState :=
  let validKeys := keys.filter (fun k => Validation.jsTrim k ≠ "")
  if validKeys.length = 0 then
    .error "No valid API keys provided"
  else
    .ok ⟨validKeys.map (fun k => ⟨Validation.jsTrim k, 0, 0, none, none, true⟩), 0⟩

/-- The `while (attempts < API_KEY_STATES.length)` scan of
`getNextGeminiKey` (lines 1305–1326): from cursor `sel`, find the first
active key, bump its usage counter and timestamp, advance the cursor past
it.  `fuel` is the remaining number of loop iterations. -/
def scanLoop (now : ℕ) (states : List ApiKeyState) : ℕ → ℕ → Option (String × ℕ × List ApiKeyState × ℕ)
  | _, 0 => none
  | sel, fuel + 1 =>
    match states[sel]? with
    | none => none
    | some ks =>
      if ks.isActive then
        some (ks.key, sel,
          states.set sel { ks with usageCount := ks.usageCount + 1, lastUsedAt := some now },
          (sel + 1) % states.length)
      else
        scanLoop now states ((sel + 1) % states.length) fuel

/-- The bulk reset on total exhaustion (lines 1330–1333): every key is
reactivated and its error count zeroed. -/
def resetAllKeys (states : List ApiKeyState) : List ApiKeyState :=
  states.map (fun s => { s with isActive := true, errorCount := 0 })

/-- Embedding of `getNextGeminiKey` (lines 1297–1336).  Empty pool:
caller-visible error.  Otherwise scan; if every key is inactive, reset all
keys (`isActive := true`, `errorCount := 0`) and scan again — the source
recurses, and the recursion terminates after this one reset because every
key is then active, so the unrolled second scan is exact.  The final
`.error` branch is unreachable for any pool whose cursor is in bounds. -/
def getNextGeminiKey (now : ℕ) (st : PoolState) : Except String (String × ℕ) × PoolState :=
  if st.states.length = 0 then
    (.error "No Gemini API keys configured. Please add API keys first.", st)
  else
    match scanLoop now st.states st.currentKeyIndex st.states.length with
    | some (k, i, sts, cur) => (.ok (k, i), ⟨sts, cur⟩)
    | none =>
      let sts := resetAllKeys st.states
      match scanLoop now sts st.currentKeyIndex sts.length with
      | some (k, i, sts', cur) => (.ok (k, i), ⟨sts', cur⟩)
      | none => (.error "No Gemini API keys configured. Please add API keys first.", ⟨sts, st.currentKeyIndex⟩)

/-- Embedding of `markKeyError` (lines 1339–1353): bump the error count,
record the message, deactivate once the count reaches 3.  Out-of-range
indices are ignored (the source guards them). -/
def markKeyError (states : List ApiKeyState) (keyIndex : ℕ) (errorMessage : String) : List ApiKeyState :=
  match states[keyIndex]? with
  | none => states
  | some ks =>
    let ks' := { ks with errorCount := ks.errorCount + 1, lastError := some errorMessage }
    states.set keyIndex (if 3 ≤ ks'.errorCount then { ks' with isActive := false } else ks')

/-- Embedding of `markKeySuccess` (lines 1356–1361). -/
def markKeySuccess (states : List ApiKeyState) (keyIndex : ℕ) : List ApiKeyState :=
  match states[keyIndex]? with
  | none => states
  | some ks => states.set keyIndex { ks with errorCount := 0, lastError := none }

end KeyPool

namespace Client

open KeyPool

/-- The provider outcomes `callGeminiAPI` distinguishes, abstracting the
`fetch` collaborator: non-OK HTTP responses (all four status classes
retry, only the wait differs), an OK response carrying
`promptFeedback.blockReason`, an OK response with missing
candidates/content, an OK response with no text part, a structurally
valid success, and a thrown exception (network or JSON decoding). -/
inductive ProviderResponse where
  | httpError (status : ℕ) (message : String)
  | blocked (reason : String)
  | invalidStructure
  | noText
  | success (text : String)
  | exceptionThrown (message : String)
deriving DecidableEq, Repr

/-- The exhaustion error of `callGeminiAPI` (line 1539). -/
def exhaustMessage (n : ℕ) : String :=
  "Failed to generate content after " ++ toString n ++
    " attempts across all API keys. Please check your API keys and try again."

/-- The `while (attemptCount < maxTotalRetries)` loop of `callGeminiAPI`
(lines 1394–1536).  `responses i` is the provider outcome of the `i`-th
attempt (0-based); `attempts` is `attemptCount` so far; `fuel` the
remaining budget.  Each non-success outcome records a key failure and
continues; a content block is thrown *inside* the `try`, so the `catch`
records `Content blocked by Gemini: <reason>` on the key and continues
like any other failure.  Returns (result, final `attemptCount`, final pool
state). -/
def callLoop (responses : ℕ → ProviderResponse) (now : ℕ) :
    PoolState → ℕ → ℕ → Except String String × ℕ × PoolState
  | st, attempts, 0 => (.error (exhaustMessage attempts), attempts, st)
  | st, attempts, fuel + 1 =>
    match getNextGeminiKey now st with
    | (.error e, st') => (.error e, attempts + 1, st')
    | (.ok (_key, keyIndex), st') =>
      match responses attempts with
      | .success text =>
        (.ok text, attempts + 1, ⟨markKeySuccess st'.states keyIndex, st'.currentKeyIndex⟩)
      | .httpError _status msg =>
        callLoop responses now ⟨markKeyError st'.states keyIndex msg, st'.currentKeyIndex⟩ (attempts + 1) fuel
      | .blocked reason =>
        callLoop responses now
          ⟨markKeyError st'.states keyIndex ("Content blocked by Gemini: " ++ reason), st'.currentKeyIndex⟩
          (attempts + 1) fuel
      | .invalidStructure =>
        callLoop responses now ⟨markKeyError st'.states keyIndex "Invalid response structure", st'.currentKeyIndex⟩ (attempts + 1) fuel
      | .noText =>
        callLoop responses now ⟨markKeyError st'.states keyIndex "No text content in response", st'.currentKeyIndex⟩ (attempts + 1) fuel
      | .exceptionThrown msg =>
        callLoop responses now ⟨markKeyError st'.states keyIndex msg, st'.currentKeyIndex⟩ (attempts + 1) fuel

/-- Embedding of `callGeminiAPI` (lines 1376–1540): empty/blank prompt
fails fast before any credential is obtained; otherwise the retry loop
runs with budget `API_KEY_STATES.length * 3`. -/
def callGeminiAPI (prompt : String) (responses : ℕ → ProviderResponse) (now : ℕ)
    (st : PoolState) : Except String String × ℕ × PoolState :=
  if Validation.jsTrim prompt = "" then
    (.error "Prompt cannot be empty", 0, st)
  else
    callLoop responses now st 0 (st.states.length * 3)

end Client

namespace Parser

/-- The strategy-cascade driver of `parseJsonRobust`
(src/src/components/DiagramRenderer.tsx, lines 1224–1239).  The six
extraction strategies are closures whose outcomes (a parsed value or a
thrown message) are the entries of `results`; `JSON.parse` and the regex
machinery live inside those closures, external to the driver.  The driver
returns the first success; on each failure it pushes
`Strategy <i+1>: <message>` onto the internal `errors` array (returned
here as the second component); if every strategy throws it fails with the
fixed message of line 1238 — the `errors` array is never surfaced. -/
def parseJsonRobustLoop {α : Type} : ℕ → List (Except String α) → List String →
    Except String α × List String
  | _, [], errors => (.error "Failed to parse AI response. Please try again.", errors)
  | i, r :: rs, errors =>
    match r with
    | .ok v => (.ok v, errors)
    | .error m =>
      parseJsonRobustLoop (i + 1) rs (errors ++ ["Strategy " ++ toString (i + 1) ++ ": " ++ m])

/-- `parseJsonRobust`, driver view: strategy outcomes in, result plus the
collected (internal) error list out. -/
def parseJsonRobust {α : Type} (results : List (Except String α)) :
    Except String α × List String :=
  parseJsonRobustLoop 0 results []

/-- The per-strategy failure messages produced on an input containing no
bracket of the expected kind (e.g. the plain text `hello` with expected
shape `array`): every strategy throws before reaching `JSON.parse`. -/
def noBracketStrategyErrors : List (Except String Unit) :=
  [.error "No JSON found in response",
   .error "No opening bracket found",
   .error "Invalid bracket positions",
   .error "No JSON after aggressive cleaning",
   .error "Cannot find JSON boundaries",
   .error "No opening bracket found"]

/-- Substring test on the list-of-characters model. -/
def containsSubstring (haystack needle : String) : Bool :=
  decide (needle.data <:+: haystack.data)

end Parser

namespace Sanitizer

open Validation (jsWhitespace jsTrimList)

/-! ### Character classes used by the sanitizer's regexes -/

/-- The control-character class removed at lines 979 and 1040:
`[\x00-\x08\x0B-\x0C\x0E-\x1F\x7F]` (both lines denote the same set). -/
def ctlA (c : Char) : Prop :=
  c.toNat ≤ 8 ∨ c.toNat = 11 ∨ c.toNat = 12 ∨ (14 ≤ c.toNat ∧ c.toNat ≤ 31) ∨ c.toNat = 127

instance : DecidablePred ctlA := fun c => by
  unfold ctlA; infer_instance

/-- `[0-9a-fA-F]`. -/
def isHexDigit (c : Char) : Prop :=
  (48 ≤ c.toNat ∧ c.toNat ≤ 57) ∨ (97 ≤ c.toNat ∧ c.toNat ≤ 102) ∨ (65 ≤ c.toNat ∧ c.toNat ≤ 70)

instance : DecidablePred isHexDigit := fun c => by
  unfold isHexDigit; infer_instance

/-- `[0-7]`. -/
def isOctalDigit (c : Char) : Prop := 48 ≤ c.toNat ∧ c.toNat ≤ 55

instance : DecidablePred isOctalDigit := fun c => by
  unfold isOctalDigit; infer_instance

/-- The nine characters that may legally follow a backslash in JSON
(step 7's regex `\\([^"\\\/bfnrtu])` is the complement). -/
def validEscapeChar (c : Char) : Prop :=
  c = '"' ∨ c = '\\' ∨ c = '/' ∨ c = 'b' ∨ c = 'f' ∨ c = 'n' ∨ c = 'r' ∨ c = 't' ∨ c = 'u'

instance : DecidablePred validEscapeChar := fun c => by
  unfold validEscapeChar; infer_instance

/-! ### A generic scan engine for `String.replace(/pat/g, rep)`

JS global replace scans the input left to right: at each position either
the rule matches — the replacement is emitted and the scan continues
*after* the matched span (replacements are never rescanned) — or one
character is copied.  `fuel` bounds the number of steps; every rule used
here consumes at least one character per match, so `fuel = l.length`
is always sufficient. -/

def scanStep (rule : List Char → Option (List Char × ℕ)) : ℕ → List Char → List Char
  | 0, _ => []
  | _ + 1, [] => []
  | fuel + 1, c :: rest =>
    match rule (c :: rest) with
    | some (out, skip) => out ++ scanStep rule fuel ((c :: rest).drop skip)
    | none => c :: scanStep rule fuel rest

/-- Run a scan with sufficient fuel. -/
def runScan (rule : List Char → Option (List Char × ℕ)) (l : List Char) : List Char :=
  scanStep rule l.length l

/-- Literal-pattern rule (`String.replace(/literal/g, rep)`). -/
def litRule (pat rep : List Char) (seg : List Char) : Option (List Char × ℕ) :=
  if pat ≠ [] ∧ pat <+: seg then some (rep, pat.length) else none

/-- Global replace of a literal pattern. -/
def replaceAllL (pat rep l : List Char) : List Char := runScan (litRule pat rep) l

/-- Case-insensitive match of one pattern character (the pattern character
is concrete ASCII; `/i` lets an uppercase input letter match a lowercase
pattern letter). -/
def ciCharMatch (p c : Char) : Prop :=
  c = p ∨ (97 ≤ p.toNat ∧ p.toNat ≤ 122 ∧ c.toNat + 32 = p.toNat)

instance : ∀ p c, Decidable (ciCharMatch p c) := fun p c => by
  unfold ciCharMatch; infer_instance

/-- Case-insensitive prefix match. -/
def ciPrefix : List Char → List Char → Prop
  | [], _ => True
  | _ :: _, [] => False
  | p :: ps, c :: cs => ciCharMatch p c ∧ ciPrefix ps cs

instance instDecidableCiPrefix : ∀ ps l, Decidable (ciPrefix ps l)
  | [], _ => isTrue trivial
  | _ :: _, [] => isFalse (fun h => h)
  | p :: ps, c :: cs =>
    have : Decidable (ciPrefix ps cs) := instDecidableCiPrefix ps cs
    by unfold ciPrefix; infer_instance

/-- Rule for a case-insensitive fence pattern deleted by step 1. -/
def ciDeleteRule (pat : List Char) (seg : List Char) : Option (List Char × ℕ) :=
  if pat ≠ [] ∧ ciPrefix pat seg then some ([], pat.length) else none

/-- Global case-insensitive delete (`.replace(/pat/gi, "")`). -/
def replaceAllCIDelete (pat : List Char) (l : List Char) : List Char :=
  runScan (ciDeleteRule pat) l

/-- First-occurrence replace (`String.replace` with a *string* pattern,
used to restore the indexed Unicode placeholders). -/
def replaceFirstAux (pat rep : List Char) : List Char → List Char
  | [] => []
  | c :: rest =>
    if pat <+: (c :: rest) then rep ++ (c :: rest).drop pat.length
    else c :: replaceFirstAux pat rep rest

/-- `String.replace(pat, rep)`: a JS empty string pattern matches at
position 0. -/
def replaceFirstL (pat rep l : List Char) : List Char :=
  match pat with
  | [] => rep ++ l
  | _ :: _ => replaceFirstAux pat rep l

/-! ### Step 1 (lines 954–961): markdown fences, leading `json`, trim -/

/-- `/^\s*json\s*/gi`: anchored, so at most one leading occurrence is
removed. -/
def stripLeadingJson (l : List Char) : List Char :=
  let l1 := l.dropWhile (fun c => decide (jsWhitespace c))
  if ciPrefix "json".data l1 then (l1.drop 4).dropWhile (fun c => decide (jsWhitespace c))
  else l

def step1 (l : List Char) : List Char :=
  jsTrimList (stripLeadingJson
    (replaceAllL "```".data []
      (replaceAllCIDelete "```js".data
        (replaceAllCIDelete "```javascript".data
          (replaceAllCIDelete "```json".data l)))))

/-! ### Step 2 (lines 967–995): protect escapes, strip control characters,
restore -/

def step2protect (l : List Char) : List Char :=
  replaceAllL "\\\\".data "___ESCAPE___backslash".data
    (replaceAllL "\\\"".data "___ESCAPE___quote".data
      (replaceAllL "\\b".data "___ESCAPE___b".data
        (replaceAllL "\\f".data "___ESCAPE___f".data
          (replaceAllL "\\t".data "___ESCAPE___t".data
            (replaceAllL "\\r".data "___ESCAPE___r".data
              (replaceAllL "\\n".data "___ESCAPE___n".data l))))))

def step2removeCtl (l : List Char) : List Char :=
  (((l.map (fun c => if ctlA c then ' ' else c)).map
      (fun c => if c = '\n' then ' ' else c)).map
    (fun c => if c = '\r' then ' ' else c)).map
    (fun c => if c = '\t' then ' ' else c)

def step2restore (l : List Char) : List Char :=
  replaceAllL "___ESCAPE___backslash".data "\\\\".data
    (replaceAllL "___ESCAPE___quote".data "\\\"".data
      (replaceAllL "___ESCAPE___b".data "\\b".data
        (replaceAllL "___ESCAPE___f".data "\\f".data
          (replaceAllL "___ESCAPE___t".data "\\t".data
            (replaceAllL "___ESCAPE___r".data "\\r".data
              (replaceAllL "___ESCAPE___n".data "\\n".data l))))))

/-! ### Step 3 (lines 998–1001): `[""] → "` and `[''] → '` are literal
no-op character classes in the source (plain ASCII quotes on both sides);
the three-character mojibake sequence `â €¬ ¦` (bytes of a mis-decoded
ellipsis) becomes `...`. -/

def step3 (l : List Char) : List Char :=
  replaceAllL [Char.ofNat 0xE2, Char.ofNat 0x20AC, Char.ofNat 0xA6] "...".data
    ((l.map (fun c => if c = '"' then '"' else c)).map
      (fun c => if c = '\'' then '\'' else c))

/-! ### Step 4 (lines 1003–1023): Unicode escape validation -/

/-- One decimal digit character (range facts only need `0`–`9`; any
argument ≥ 9 yields `9`). -/
def decDigitCore : ℕ → Char
  | 0 => '0' | 1 => '1' | 2 => '2' | 3 => '3' | 4 => '4'
  | 5 => '5' | 6 => '6' | 7 => '7' | 8 => '8' | _ => '9'

/-- Decimal digits of `n`, most significant first (fuel-structural). -/
def natDigitsAux : ℕ → ℕ → List Char
  | 0, n => [decDigitCore n]
  | fuel + 1, n =>
    if n < 10 then [decDigitCore n]
    else natDigitsAux fuel (n / 10) ++ [decDigitCore (n % 10)]

def natDigits (n : ℕ) : List Char := natDigitsAux n n

/-- The indexed placeholder `___VALID_UNICODE_${index}___`. -/
def placeholder (k : ℕ) : List Char :=
  "___VALID_UNICODE_".data ++ natDigits k ++ "___".data

/-- Lookahead for the tail of a valid Unicode escape: after a backslash,
`u` plus exactly four hex digits. -/
def hexEscSplit (l : List Char) : Option (Char × Char × Char × Char × List Char) :=
  match l with
  | 'u' :: h1 :: h2 :: h3 :: h4 :: rest =>
    if isHexDigit h1 ∧ isHexDigit h2 ∧ isHexDigit h3 ∧ isHexDigit h4 then
      some (h1, h2, h3, h4, rest)
    else none
  | _ => none

/-- The protection pass for `/\\u[0-9a-fA-F]{4}/g` with the indexing
callback of lines 1010–1014: each valid escape is replaced by its indexed
placeholder and recorded, in scan order; on a failed lookahead the scan
advances one character. -/
def collectAux : ℕ → ℕ → List Char → List Char × List (List Char)
  | 0, _, _ => ([], [])
  | _ + 1, _, [] => ([], [])
  | fuel + 1, k, c :: rest =>
    if c = '\\' then
      match hexEscSplit rest with
      | some (h1, h2, h3, h4, rest2) =>
        let p := collectAux fuel (k + 1) rest2
        (placeholder k ++ p.1, ['\\', 'u', h1, h2, h3, h4] :: p.2)
      | none =>
        let p := collectAux fuel k rest
        (c :: p.1, p.2)
    else
      let p := collectAux fuel k rest
      (c :: p.1, p.2)

def collectValidUnicodes (l : List Char) : List Char × List (List Char) :=
  collectAux l.length 0 l

/-- `/\\u[^_]/g → 'u'` (line 1017): the match spans *three* characters —
the backslash, the `u`, and the following character — all replaced by a
single `u`; a following underscore (a placeholder start) blocks the
match, in which case the scan advances one character. -/
def invalidURule (seg : List Char) : Option (List Char × ℕ) :=
  match seg with
  | '\\' :: 'u' :: c :: _ => if c = '_' then none else some (['u'], 3)
  | _ => none

def removeInvalidU (l : List Char) : List Char := runScan invalidURule l

/-- `/\\u$/g → 'u'` (line 1018). -/
def stripTrailingBackslashU (l : List Char) : List Char :=
  if ['\\', 'u'] <:+ l then l.take (l.length - 2) ++ ['u'] else l

/-- The restore loop of lines 1021–1023: for each stored escape, replace
the *first* occurrence of its indexed placeholder. -/
def restoreAux : ℕ → List (List Char) → List Char → List Char
  | _, [], l => l
  | k, e :: es, l => restoreAux (k + 1) es (replaceFirstL (placeholder k) e l)

def step4 (l : List Char) : List Char :=
  let p := collectValidUnicodes l
  restoreAux 0 p.2 (stripTrailingBackslashU (removeInvalidU p.1))

/-! ### Step 5 (line 1026): `/,(\s*[}\]])/g → '$1'` -/

/-- A comma whose run of whitespace is followed by a closing brace or
bracket: the match (comma, whitespace, bracket) is replaced by the
captured group (whitespace, bracket). -/
def commaRule (seg : List Char) : Option (List Char × ℕ) :=
  match seg with
  | c :: rest =>
    if c = ',' then
      match rest.dropWhile (fun c => decide (jsWhitespace c)) with
      | b :: _ =>
        if b = Char.ofNat 125 ∨ b = ']' then
          some (rest.takeWhile (fun c => decide (jsWhitespace c)) ++ [b],
            1 + (rest.takeWhile (fun c => decide (jsWhitespace c))).length + 1)
        else none
      | [] => none
    else none
  | [] => none

def removeTrailingCommas (l : List Char) : List Char := runScan commaRule l

/-! ### Step 6 (line 1029): `/\s+/g → ' '` -/

/-- A maximal whitespace run becomes a single space. -/
def wsRule (seg : List Char) : Option (List Char × ℕ) :=
  match seg with
  | c :: rest =>
    if jsWhitespace c then
      some ([' '], 1 + (rest.takeWhile (fun c => decide (jsWhitespace c))).length)
    else none
  | [] => none

def collapseWs (l : List Char) : List Char := runScan wsRule l

/-! ### Step 7 (line 1034): `/\\([^"\\\/bfnrtu])/g → '$1'` -/

def escapeRule (seg : List Char) : Option (List Char × ℕ) :=
  match seg with
  | '\\' :: c :: _ => if validEscapeChar c then none else some ([c], 2)
  | _ => none

def removeInvalidEscapes (l : List Char) : List Char := runScan escapeRule l

/-! ### Step 8 (lines 1037–1040): hex and octal escape remnants, final
control-character filter -/

/-- `/\\x[0-9a-fA-F]{0,2}/g → ''` (greedy, up to two hex digits). -/
def hexEscRule (seg : List Char) : Option (List Char × ℕ) :=
  match seg with
  | '\\' :: 'x' :: rest =>
    some ([], 2 + ((rest.takeWhile (fun c => decide (isHexDigit c))).length.min 2))
  | _ => none

def removeHexEscapes (l : List Char) : List Char := runScan hexEscRule l

/-- `/\\[0-7]{1,3}/g → ''` (greedy, one to three octal digits). -/
def octEscRule (seg : List Char) : Option (List Char × ℕ) :=
  match seg with
  | '\\' :: c :: rest =>
    if isOctalDigit c then
      some ([], 2 + ((rest.takeWhile (fun c => decide (isOctalDigit c))).length.min 2))
    else none
  | _ => none

def removeOctalEscapes (l : List Char) : List Char := runScan octEscRule l

def removeCtlFinal (l : List Char) : List Char :=
  l.filter (fun c => decide (¬ ctlA c))

/-! ### The assembled sanitizer -/

/-- Steps 5–8 (lines 1026–1040). -/
def stepsTail (l : List Char) : List Char :=
  removeCtlFinal (removeOctalEscapes (removeHexEscapes (removeInvalidEscapes
    (collapseWs (removeTrailingCommas l)))))

/-- Embedding of `sanitizeJsonString`
(src/src/components/DiagramRenderer.tsx, lines 953–1043) on the
character-list model. -/
def sanitizeList (l : List Char) : List Char :=
  stepsTail (step4 (step3 (step2restore (step2removeCtl (step2protect (step1 l))))))

/-- Embedding of `sanitizeJsonString`. -/
def sanitizeJsonString (s : String) : String := ⟨sanitizeList s.data⟩

/-- Modelled from the spec: the rewrite rule the claim describes for a
bare `\u` — drop only the backslash, keep the characters that follow. -/
def claimInvalidURewrite (c : Char) : List Char := ['u', c]

/-- Plain alphanumeric ASCII: digits, uppercase and lowercase letters.
None of these characters triggers any sanitizer rule. -/
def plainChar (c : Char) : Prop :=
  (48 ≤ c.toNat ∧ c.toNat ≤ 57) ∨ (65 ≤ c.toNat ∧ c.toNat ≤ 90) ∨ (97 ≤ c.toNat ∧ c.toNat ≤ 122)

instance : DecidablePred plainChar := fun c => by
  unfold plainChar; infer_instance

end Sanitizer

namespace QuotaCalc

/-- The `0.02` fallback inside the reduce can never fire: every topic that
survives the `weightage > 0` filter has a nonzero weight, so the computed
denominator is exactly `posWeightSum`. -/
theorem totalWeightage_eq_posWeightSum (topics : List GTopic) :
    ((topics.filter (fun t => 0 < t.weightage)).map
      (fun t => if t.weightage = 0 then (2/100 : ℚ) else t.weightage)).sum
      = posWeightSum topics := by
  unfold posWeightSum
  induction topics with
  | nil => rfl
  | cons t ts ih =>
    by_cases h : 0 < t.weightage
    · have hne : t.weightage ≠ 0 := ne_of_gt h
      simp [List.filter_cons, h, hne, ih]
    · simp [List.filter_cons, h, ih]

/-- C1, counterexample.  With topics `a` (weight `1/2`) and `b` (weight
`0`) and target `100`, the code gives topic `a` quota `100` (denominator
`1/2`: the zero-weight topic contributes nothing), while the claimed
formula — denominator `1/2 + 0.02` — would give `96`. -/
theorem quota_denominator_claim_cex :
    ((⟨"a", 1/2⟩ : GTopic), (100 : ℤ)) ∈
      (calculateTopicQuestions [⟨"a", 1/2⟩, ⟨"b", 0⟩] 100).topics
    ∧ max 1 (jsRound ((1/2 : ℚ) / claimTotalWeight [⟨"a", 1/2⟩, ⟨"b", 0⟩] * 100)) = (96 : ℤ)
    ∧ (96 : ℤ) ≠ 100 := by
  refine ⟨?_, ?_, by decide⟩
  · have h : (calculateTopicQuestions [⟨"a", 1/2⟩, ⟨"b", 0⟩] 100).topics
        = [((⟨"a", 1/2⟩ : GTopic), (100 : ℤ)), ((⟨"b", 0⟩ : GTopic), (0 : ℤ))] := by
      unfold calculateTopicQuestions
      norm_num [jsRound, List.filter_cons]
    rw [h]
    simp
  · unfold claimTotalWeight posWeightSum
    norm_num [jsRound, List.filter_cons]

/-- C1, amended.  For every positively-weighted topic, the quota is
`max(1, round(weight / totalWeight × T))` where `totalWeight` is the sum
of the weights of the positively-weighted topics only: zero-weight topics
are filtered out before the sum and contribute nothing to the
denominator. -/
theorem calculateTopicQuestions_weighted_quota
    (ts : List GTopic) (T : ℕ) (t : GTopic) (ht : t ∈ ts) (hw : 0 < t.weightage) :
    (t, max 1 (jsRound (t.weightage / posWeightSum ts * T))) ∈
      (calculateTopicQuestions ts T).topics := by
  have hne : t.weightage ≠ 0 := ne_of_gt hw
  unfold calculateTopicQuestions
  simp only [totalWeightage_eq_posWeightSum]
  exact List.mem_map.mpr ⟨t, ht, by simp [hne]⟩

/-- Witness for `calculateTopicQuestions_weighted_quota`. -/
theorem calculateTopicQuestions_weighted_quota_witness :
    (⟨"a", (1:ℚ)⟩ : GTopic) ∈ [(⟨"a", (1:ℚ)⟩ : GTopic)] ∧ (0:ℚ) < 1 ∧
    ((⟨"a", (1:ℚ)⟩ : GTopic),
        max 1 (jsRound ((1:ℚ) / posWeightSum [⟨"a", (1:ℚ)⟩] * 10))) ∈
      (calculateTopicQuestions [⟨"a", (1:ℚ)⟩] 10).topics :=
  ⟨by decide, by norm_num,
    calculateTopicQuestions_weighted_quota [⟨"a", (1:ℚ)⟩] 10 ⟨"a", (1:ℚ)⟩
      (by decide) (by norm_num)⟩

/-- C5.  Every zero-weight topic gets quota `1` when `T ≥ 500` and `0`
otherwise, and the returned `extraQuestionsCount` is the number of
zero-weight topics when `T ≥ 500` and `0` otherwise. -/
theorem calculateTopicQuestions_zero_weight (ts : List GTopic) (T : ℕ) :
    (∀ t ∈ ts, t.weightage = 0 →
        (t, if 500 ≤ T then (1:ℤ) else 0) ∈ (calculateTopicQuestions ts T).topics)
    ∧ (calculateTopicQuestions ts T).extraQuestionsCount
        = (if 500 ≤ T then (ts.filter (fun t => t.weightage = 0)).length else 0) := by
  constructor
  · intro t ht h0
    unfold calculateTopicQuestions
    exact List.mem_map.mpr ⟨t, ht, by simp [h0]⟩
  · unfold calculateTopicQuestions
    by_cases h : 500 ≤ T <;> simp [h]

/-- Witness for `calculateTopicQuestions_zero_weight`. -/
theorem calculateTopicQuestions_zero_weight_witness :
    (⟨"z", (0:ℚ)⟩ : GTopic) ∈ [(⟨"z", (0:ℚ)⟩ : GTopic)] ∧
    ((⟨"z", (0:ℚ)⟩ : GTopic), if 500 ≤ 500 then (1:ℤ) else 0) ∈
      (calculateTopicQuestions [⟨"z", (0:ℚ)⟩] 500).topics :=
  ⟨by decide,
    (calculateTopicQuestions_zero_weight [⟨"z", (0:ℚ)⟩] 500).1 ⟨"z", (0:ℚ)⟩
      (by decide) (by decide)⟩

end QuotaCalc

namespace Validation

/-- C6, counterexample.  A single-select (MCQ) item with 3 options is
*accepted* by `validateQuestionAnswer` (the inline validator only requires
a non-empty options array), contradicting the claim that the validator
returns invalid for it. -/
theorem validateQuestionAnswer_three_options_cex :
    (validateQuestionAnswer
        ⟨some "What is 2 plus 2", some "MCQ", some ["1", "2", "3"]⟩).1 = true := by
  decide

/-- C6, amended.  The exactly-4 rule is enforced not by the inline
validator but by the separate pre-persistence check in the generation
loop; the combined structural gate accepts an MCQ item iff its options
list has exactly 4 entries (given a non-blank statement). -/
theorem structuralGateAccepts_mcq_iff_four_options
    (stmt : String) (opts : List String) (hs : (jsTrim stmt).length ≠ 0) :
    structuralGateAccepts "MCQ" ⟨some stmt, some "MCQ", some opts⟩ = true
      ↔ opts.length = 4 := by
  constructor
  · intro h
    simp only [structuralGateAccepts, optionsCountOk, Bool.and_eq_true] at h
    have := h.2
    simp at this
    exact this
  · intro h4
    have hne : opts ≠ [] := by
      intro he; rw [he] at h4; simp at h4
    simp [structuralGateAccepts, optionsCountOk, validateQuestionAnswer, hs, hne, h4]

/-- Witness for `structuralGateAccepts_mcq_iff_four_options`. -/
theorem structuralGateAccepts_mcq_witness :
    (jsTrim "Q").length ≠ 0 ∧
    structuralGateAccepts "MCQ" ⟨some "Q", some "MCQ", some ["a", "b", "c", "d"]⟩ = true :=
  ⟨by decide,
    (structuralGateAccepts_mcq_iff_four_options "Q" ["a", "b", "c", "d"]
      (by decide)).mpr (by decide)⟩

end Validation

namespace KeyPool

/-- Indexing hits only list members. -/
theorem mem_of_getElem?_eq_some {α : Type} {l : List α} {i : ℕ} {x : α}
    (h : l[i]? = some x) : x ∈ l := by
  induction l generalizing i with
  | nil => simp at h
  | cons a t ih =>
    cases i with
    | zero => simp at h; simp [h]
    | succ n =>
      simp only [List.getElem?_cons_succ] at h
      exact List.mem_cons_of_mem _ (ih h)

/-- A successful scan preserves the pool length and leaves the cursor in
bounds. -/
theorem scanLoop_some_spec (now : ℕ) (states : List ApiKeyState) :
    ∀ fuel sel k i sts cur, scanLoop now states sel fuel = some (k, i, sts, cur) →
      sts.length = states.length ∧ (0 < states.length → cur < states.length) := by
  intro fuel
  induction fuel with
  | zero => intro sel k i sts cur h; simp [scanLoop] at h
  | succ n ih =>
    intro sel k i sts cur h
    simp only [scanLoop] at h
    cases hl : states[sel]? with
    | none => rw [hl] at h; simp at h
    | some ks =>
      rw [hl] at h
      by_cases ha : ks.isActive
      · simp only [ha, if_true, Option.some.injEq, Prod.mk.injEq] at h
        obtain ⟨-, -, h3, h4⟩ := h
        subst h3; subst h4
        exact ⟨List.length_set .., fun hp => Nat.mod_lt _ hp⟩
      · simp only [ha, if_false] at h
        exact ih _ _ _ _ _ h

/-- A scan over a pool whose keys are all inactive finds nothing. -/
theorem scanLoop_all_inactive (now : ℕ) (states : List ApiKeyState)
    (hall : ∀ s ∈ states, s.isActive = false) :
    ∀ fuel sel, scanLoop now states sel fuel = none := by
  intro fuel
  induction fuel with
  | zero => intro sel; rfl
  | succ n ih =>
    intro sel
    simp only [scanLoop]
    cases hl : states[sel]? with
    | none => rfl
    | some ks =>
      have : ks.isActive = false := hall ks (mem_of_getElem?_eq_some hl)
      simp [this, ih]

/-- A scan starting at an in-bounds active key succeeds immediately. -/
theorem scanLoop_active_at (now : ℕ) (states : List ApiKeyState) (sel : ℕ) (ks : ApiKeyState)
    (hl : states[sel]? = some ks) (ha : ks.isActive = true) (fuel : ℕ) (hf : 0 < fuel) :
    scanLoop now states sel fuel
      = some (ks.key, sel,
          states.set sel { ks with usageCount := ks.usageCount + 1, lastUsedAt := some now },
          (sel + 1) % states.length) := by
  obtain ⟨n, rfl⟩ := Nat.exists_eq_succ_of_ne_zero (Nat.pos_iff_ne_zero.mp hf)
  simp [scanLoop, hl, ha]

/-- Selection on a non-empty pool with an in-bounds cursor always
succeeds, preserving the pool length and the cursor bound. -/
theorem getNextGeminiKey_ok (now : ℕ) (st : PoolState)
    (h0 : st.states.length ≠ 0) (hc : st.currentKeyIndex < st.states.length) :
    ∃ k i st', getNextGeminiKey now st = (.ok (k, i), st')
      ∧ st'.states.length = st.states.length
      ∧ st'.currentKeyIndex < st'.states.length := by
  have hp : 0 < st.states.length := Nat.pos_of_ne_zero h0
  unfold getNextGeminiKey
  rw [if_neg h0]
  cases hscan : scanLoop now st.states st.currentKeyIndex st.states.length with
  | some q =>
    obtain ⟨k, i, sts, cur⟩ := q
    have hs := scanLoop_some_spec now st.states _ _ _ _ _ _ hscan
    exact ⟨k, i, ⟨sts, cur⟩, rfl, hs.1, by rw [hs.1]; exact hs.2 hp⟩
  | none =>
    have hlenm : (resetAllKeys st.states).length = st.states.length := List.length_map _ _
    have hcm : st.currentKeyIndex < (resetAllKeys st.states).length := by
      rw [hlenm]; exact hc
    have hlk : (resetAllKeys st.states)[st.currentKeyIndex]?
        = some ((resetAllKeys st.states).get ⟨st.currentKeyIndex, hcm⟩) :=
      List.getElem?_eq_getElem hcm
    have hact : ((resetAllKeys st.states).get ⟨st.currentKeyIndex, hcm⟩).isActive = true := by
      simp [resetAllKeys, List.getElem_map]
    have hscan2 : scanLoop now (resetAllKeys st.states) st.currentKeyIndex
          (resetAllKeys st.states).length
        = some (((resetAllKeys st.states).get ⟨st.currentKeyIndex, hcm⟩).key, st.currentKeyIndex,
            (resetAllKeys st.states).set st.currentKeyIndex
              { (resetAllKeys st.states).get ⟨st.currentKeyIndex, hcm⟩ with
                usageCount := (((resetAllKeys st.states).get ⟨st.currentKeyIndex, hcm⟩).usageCount) + 1,
                lastUsedAt := some now },
            (st.currentKeyIndex + 1) % (resetAllKeys st.states).length) :=
      scanLoop_active_at now _ _ _ hlk hact _ (by rw [hlenm]; exact hp)
    dsimp only
    rw [hscan2]
    refine ⟨_, _, _, rfl, ?_, ?_⟩
    · simp [List.length_set, hlenm]
    · simp only [List.length_set]
      exact Nat.lt_of_lt_of_eq (Nat.mod_lt _ (by rw [hlenm]; exact hp)) (by rw [hlenm])

end KeyPool

namespace KeyPool

/-- C3.  `getNextGeminiKey` (i) fails with the caller-visible error
exactly on an empty pool, (ii) returns a credential whenever the pool is
non-empty (cursor in bounds), and (iii) when every credential is
deactivated it auto-resets the pool — the same call succeeds and every
credential in the resulting pool is active with error count zero. -/
theorem getNextGeminiKey_contract :
    (∀ (now : ℕ) (st : PoolState), st.states = [] →
        getNextGeminiKey now st
          = (.error "No Gemini API keys configured. Please add API keys first.", st))
    ∧ (∀ (now : ℕ) (st : PoolState), st.states ≠ [] →
        st.currentKeyIndex < st.states.length →
        ∃ k i st', getNextGeminiKey now st = (.ok (k, i), st'))
    ∧ (∀ (now : ℕ) (st : PoolState), st.states ≠ [] →
        st.currentKeyIndex < st.states.length →
        (∀ s ∈ st.states, s.isActive = false) →
        ∃ k i st', getNextGeminiKey now st = (.ok (k, i), st')
          ∧ ∀ s ∈ st'.states, s.errorCount = 0 ∧ s.isActive = true) := by
  refine ⟨?_, ?_, ?_⟩
  · intro now st h
    simp [getNextGeminiKey, h]
  · intro now st hne hc
    have h0 : st.states.length ≠ 0 := by simpa [List.length_eq_zero] using hne
    obtain ⟨k, i, st', hg, -, -⟩ := getNextGeminiKey_ok now st h0 hc
    exact ⟨k, i, st', hg⟩
  · intro now st hne hc hall
    have h0 : st.states.length ≠ 0 := by simpa [List.length_eq_zero] using hne
    have hp : 0 < st.states.length := Nat.pos_of_ne_zero h0
    have hscan1 : scanLoop now st.states st.currentKeyIndex st.states.length = none :=
      scanLoop_all_inactive now st.states hall _ _
    have hlenm : (resetAllKeys st.states).length = st.states.length := List.length_map _ _
    have hcm : st.currentKeyIndex < (resetAllKeys st.states).length := by
      rw [hlenm]; exact hc
    have hlk : (resetAllKeys st.states)[st.currentKeyIndex]?
        = some ((resetAllKeys st.states).get ⟨st.currentKeyIndex, hcm⟩) :=
      List.getElem?_eq_getElem hcm
    have hact : ((resetAllKeys st.states).get ⟨st.currentKeyIndex, hcm⟩).isActive = true := by
      simp [resetAllKeys, List.getElem_map]
    have hscan2 : scanLoop now (resetAllKeys st.states) st.currentKeyIndex
          (resetAllKeys st.states).length
        = some (((resetAllKeys st.states).get ⟨st.currentKeyIndex, hcm⟩).key, st.currentKeyIndex,
            (resetAllKeys st.states).set st.currentKeyIndex
              { (resetAllKeys st.states).get ⟨st.currentKeyIndex, hcm⟩ with
                usageCount := (((resetAllKeys st.states).get ⟨st.currentKeyIndex, hcm⟩).usageCount) + 1,
                lastUsedAt := some now },
            (st.currentKeyIndex + 1) % (resetAllKeys st.states).length) :=
      scanLoop_active_at now _ _ _ hlk hact _ (by rw [hlenm]; exact hp)
    have heq : getNextGeminiKey now st
        = (.ok (((resetAllKeys st.states).get ⟨st.currentKeyIndex, hcm⟩).key, st.currentKeyIndex),
           ⟨(resetAllKeys st.states).set st.currentKeyIndex
              { (resetAllKeys st.states).get ⟨st.currentKeyIndex, hcm⟩ with
                usageCount := (((resetAllKeys st.states).get ⟨st.currentKeyIndex, hcm⟩).usageCount) + 1,
                lastUsedAt := some now },
            (st.currentKeyIndex + 1) % (resetAllKeys st.states).length⟩) := by
      unfold getNextGeminiKey
      rw [if_neg h0, hscan1]
      dsimp only
      rw [hscan2]
    refine ⟨_, _, _, heq, ?_⟩
    intro s hs
    rcases List.mem_or_eq_of_mem_set hs with hmem | rfl
    · obtain ⟨t, -, rfl⟩ := List.mem_map.mp hmem
      exact ⟨rfl, rfl⟩
    · refine ⟨?_, ?_⟩
      · show ((resetAllKeys st.states).get ⟨st.currentKeyIndex, hcm⟩).errorCount = 0
        simp [resetAllKeys, List.getElem_map]
      · exact hact

/-- Witness for `getNextGeminiKey_contract`: a single fully-deactivated
credential; the very next selection succeeds and the pool is reset. -/
theorem getNextGeminiKey_contract_witness :
    (⟨[⟨"k", 5, 3, some "err", some 7, false⟩], 0⟩ : PoolState).states ≠ [] ∧
    (∃ k i st',
      getNextGeminiKey 9 ⟨[⟨"k", 5, 3, some "err", some 7, false⟩], 0⟩ = (.ok (k, i), st')
        ∧ ∀ s ∈ st'.states, s.errorCount = 0 ∧ s.isActive = true) :=
  ⟨by decide,
    getNextGeminiKey_contract.2.2 9 ⟨[⟨"k", 5, 3, some "err", some 7, false⟩], 0⟩
      (by decide) (by decide) (by decide)⟩

end KeyPool

namespace Client

open KeyPool

/-- `markKeyError` preserves the pool length. -/
theorem markKeyError_length (states : List ApiKeyState) (i : ℕ) (m : String) :
    (markKeyError states i m).length = states.length := by
  unfold markKeyError
  cases h : states[i]? with
  | none => rfl
  | some ks => simp [List.length_set]

/-- `markKeySuccess` preserves the pool length. -/
theorem markKeySuccess_length (states : List ApiKeyState) (i : ℕ) :
    (markKeySuccess states i).length = states.length := by
  unfold markKeySuccess
  cases h : states[i]? with
  | none => rfl
  | some ks => simp [List.length_set]

/-- The retry loop makes at most `fuel` further attempts. -/
theorem callLoop_attempts_le (responses : ℕ → ProviderResponse) (now : ℕ) :
    ∀ (fuel : ℕ) (st : PoolState) (attempts : ℕ),
      (callLoop responses now st attempts fuel).2.1 ≤ attempts + fuel := by
  intro fuel
  induction fuel with
  | zero => intro st attempts; simp [callLoop]
  | succ n ih =>
    intro st attempts
    simp only [callLoop]
    cases hg : getNextGeminiKey now st with
    | mk r st' =>
      cases r with
      | error e => simp
      | ok p =>
        cases p with
        | mk k i =>
          cases hr : responses attempts with
          | success t => simp
          | httpError s m =>
            dsimp only
            exact le_trans (ih _ _) (by omega)
          | blocked r =>
            dsimp only
            exact le_trans (ih _ _) (by omega)
          | invalidStructure =>
            dsimp only
            exact le_trans (ih _ _) (by omega)
          | noText =>
            dsimp only
            exact le_trans (ih _ _) (by omega)
          | exceptionThrown m =>
            dsimp only
            exact le_trans (ih _ _) (by omega)

/-- If the retry loop ends in an error under the length/cursor invariants,
the full budget was consumed and the error is the exhaustion message for
the total attempt count. -/
theorem callLoop_error_spec (responses : ℕ → ProviderResponse) (now : ℕ) :
    ∀ (fuel : ℕ) (st : PoolState) (attempts : ℕ) (e : String) (n : ℕ) (stf : PoolState),
      0 < st.states.length → st.currentKeyIndex < st.states.length →
      callLoop responses now st attempts fuel = (.error e, n, stf) →
      n = attempts + fuel ∧ e = exhaustMessage (attempts + fuel) := by
  intro fuel
  induction fuel with
  | zero =>
    intro st attempts e n stf hp hc h
    simp only [callLoop, Prod.mk.injEq, Except.error.injEq] at h
    exact ⟨h.2.1.symm, h.1.symm⟩
  | succ m ih =>
    intro st attempts e n stf hp hc h
    have h0 : st.states.length ≠ 0 := Nat.pos_iff_ne_zero.mp hp
    obtain ⟨k, i, st', hg, hlen, hcur⟩ := getNextGeminiKey_ok now st h0 hc
    rw [show (callLoop responses now st attempts (m + 1))
        = (match getNextGeminiKey now st with
           | (.error e, st') => (.error e, attempts + 1, st')
           | (.ok (_key, keyIndex), st') =>
             match responses attempts with
             | .success text =>
               (.ok text, attempts + 1, ⟨markKeySuccess st'.states keyIndex, st'.currentKeyIndex⟩)
             | .httpError _status msg =>
               callLoop responses now ⟨markKeyError st'.states keyIndex msg, st'.currentKeyIndex⟩ (attempts + 1) m
             | .blocked reason =>
               callLoop responses now
                 ⟨markKeyError st'.states keyIndex ("Content blocked by Gemini: " ++ reason), st'.currentKeyIndex⟩
                 (attempts + 1) m
             | .invalidStructure =>
               callLoop responses now ⟨markKeyError st'.states keyIndex "Invalid response structure", st'.currentKeyIndex⟩ (attempts + 1) m
             | .noText =>
               callLoop responses now ⟨markKeyError st'.states keyIndex "No text content in response", st'.currentKeyIndex⟩ (attempts + 1) m
             | .exceptionThrown msg =>
               callLoop responses now ⟨markKeyError st'.states keyIndex msg, st'.currentKeyIndex⟩ (attempts + 1) m)
        from rfl, hg] at h
    have harith : attempts + 1 + m = attempts + (m + 1) := by omega
    have hinv : ∀ (msg : String),
        0 < (⟨markKeyError st'.states i msg, st'.currentKeyIndex⟩ : PoolState).states.length
        ∧ (⟨markKeyError st'.states i msg, st'.currentKeyIndex⟩ : PoolState).currentKeyIndex
            < (⟨markKeyError st'.states i msg, st'.currentKeyIndex⟩ : PoolState).states.length := by
      intro msg
      constructor
      · show 0 < (markKeyError st'.states i msg).length
        rw [markKeyError_length, hlen]; exact hp
      · show st'.currentKeyIndex < (markKeyError st'.states i msg).length
        rw [markKeyError_length]; exact hcur
    cases hr : responses attempts with
    | success t => rw [hr] at h; simp at h
    | httpError s msg =>
      rw [hr] at h
      dsimp only at h
      have := ih _ _ _ _ _ (hinv msg).1 (hinv msg).2 h
      rw [harith] at this
      exact this
    | blocked r =>
      rw [hr] at h
      dsimp only at h
      have := ih _ _ _ _ _ (hinv _).1 (hinv _).2 h
      rw [harith] at this
      exact this
    | invalidStructure =>
      rw [hr] at h
      dsimp only at h
      have := ih _ _ _ _ _ (hinv _).1 (hinv _).2 h
      rw [harith] at this
      exact this
    | noText =>
      rw [hr] at h
      dsimp only at h
      have := ih _ _ _ _ _ (hinv _).1 (hinv _).2 h
      rw [harith] at this
      exact this
    | exceptionThrown msg =>
      rw [hr] at h
      dsimp only at h
      have := ih _ _ _ _ _ (hinv msg).1 (hinv msg).2 h
      rw [harith] at this
      exact this

/-- C4.  The completion client (i) fails fast on a blank prompt, before
any credential is obtained and with zero attempts, (ii) never makes more
than `poolSize × 3` total attempts, and (iii) whenever it ends in an error
on a non-blank prompt (pool cursor in bounds, or empty pool), the full
budget was spent and the error names the attempt count. -/
theorem callGeminiAPI_contract :
    (∀ (prompt : String) (responses : ℕ → ProviderResponse) (now : ℕ) (st : PoolState),
        Validation.jsTrim prompt = "" →
        callGeminiAPI prompt responses now st = (.error "Prompt cannot be empty", 0, st))
    ∧ (∀ (prompt : String) (responses : ℕ → ProviderResponse) (now : ℕ) (st : PoolState),
        (callGeminiAPI prompt responses now st).2.1 ≤ st.states.length * 3)
    ∧ (∀ (prompt : String) (responses : ℕ → ProviderResponse) (now : ℕ) (st : PoolState)
        (e : String),
        Validation.jsTrim prompt ≠ "" →
        st.currentKeyIndex < st.states.length ∨ st.states.length = 0 →
        (callGeminiAPI prompt responses now st).1 = .error e →
        (callGeminiAPI prompt responses now st).2.1 = st.states.length * 3
          ∧ e = exhaustMessage (st.states.length * 3)) := by
  refine ⟨?_, ?_, ?_⟩
  · intro prompt responses now st hblank
    simp [callGeminiAPI, hblank]
  · intro prompt responses now st
    unfold callGeminiAPI
    by_cases hblank : Validation.jsTrim prompt = ""
    · simp [hblank]
    · rw [if_neg hblank]
      have := callLoop_attempts_le responses now (st.states.length * 3) st 0
      omega
  · intro prompt responses now st e hblank hinv herr
    unfold callGeminiAPI at herr ⊢
    rw [if_neg hblank] at herr ⊢
    rcases hinv with hc | hzero
    · have hp : 0 < st.states.length := Nat.lt_of_le_of_lt (Nat.zero_le _) hc
      rcases hres : callLoop responses now st 0 (st.states.length * 3) with ⟨r, n, stf⟩
      rw [hres] at herr
      have hr : r = Except.error e := herr
      subst hr
      have hspec := callLoop_error_spec responses now (st.states.length * 3) st 0 e n stf hp hc hres
      have h30 : 0 + st.states.length * 3 = st.states.length * 3 := Nat.zero_add _
      rw [h30] at hspec
      exact ⟨hspec.1, hspec.2⟩
    · have hfuel : st.states.length * 3 = 0 := by rw [hzero]
      rw [hfuel] at herr ⊢
      simp only [callLoop, Except.error.injEq] at herr
      exact ⟨by simp [callLoop], herr.symm⟩

/-- Witness for `callGeminiAPI_contract`: one credential, every attempt a
server error; the call fails after exactly `1 × 3 = 3` attempts with the
exhaustion message for `3`. -/
theorem callGeminiAPI_contract_witness :
    Validation.jsTrim "hi" ≠ "" ∧
    ((callGeminiAPI "hi" (fun _ => .httpError 500 "boom") 0
          ⟨[⟨"k", 0, 0, none, none, true⟩], 0⟩).2.1
        = (⟨[⟨"k", 0, 0, none, none, true⟩], 0⟩ : PoolState).states.length * 3
      ∧ exhaustMessage 3
          = exhaustMessage ((⟨[⟨"k", 0, 0, none, none, true⟩], 0⟩ : PoolState).states.length * 3)) :=
  ⟨by decide,
    callGeminiAPI_contract.2.2 "hi" (fun _ => .httpError 500 "boom") 0
      ⟨[⟨"k", 0, 0, none, none, true⟩], 0⟩ (exhaustMessage 3)
      (by decide) (Or.inl (by decide)) (by rfl)⟩

/-- C2 (code bug).  A content-safety block does *not* fail the call: the
`throw` sits inside the `try`, so the function's own `catch` records a key
failure and the loop retries.  With one credential and the response
sequence (blocked, success), the call *succeeds* on attempt 2; with every
response blocked, the call ends in the generic exhaustion error (3
attempts), not a content-block error. -/
theorem contentBlock_is_retried :
    ((callGeminiAPI "hello"
        (fun n => if n = 0 then .blocked "SAFETY" else .success "ok") 0
        ⟨[⟨"k1", 0, 0, none, none, true⟩], 0⟩).1 = .ok "ok"
    ∧ (callGeminiAPI "hello"
        (fun n => if n = 0 then .blocked "SAFETY" else .success "ok") 0
        ⟨[⟨"k1", 0, 0, none, none, true⟩], 0⟩).2.1 = 2)
    ∧ (callGeminiAPI "hello" (fun _ => .blocked "SAFETY") 0
        ⟨[⟨"k1", 0, 0, none, none, true⟩], 0⟩).1
      = .error (exhaustMessage 3) := by
  exact ⟨⟨rfl, rfl⟩, rfl⟩

end Client

namespace Parser

/-- C8, counterexample.  When all six strategies throw (here: the actual
messages for a bracket-free input), the thrown error is the fixed string
`Failed to parse AI response. Please try again.`: it contains neither the
word `Strategy`, nor the strategy count `6`, nor any per-strategy reason,
even though the internal `errors` array collected all six — so the error
does not aggregate the strategies' failure reasons as claimed. -/
theorem parseJsonRobust_no_aggregation_cex :
    (parseJsonRobust noBracketStrategyErrors).1
        = .error "Failed to parse AI response. Please try again."
    ∧ (parseJsonRobust noBracketStrategyErrors).2.length = 6
    ∧ containsSubstring "Failed to parse AI response. Please try again." "Strategy" = false
    ∧ containsSubstring "Failed to parse AI response. Please try again."
        "No JSON found in response" = false
    ∧ containsSubstring "Failed to parse AI response. Please try again." "6" = false := by
  exact ⟨rfl, rfl, by decide, by decide, by decide⟩

/-- Generalized: the loop on all-failing strategies yields the fixed error
and collects one internal entry per strategy. -/
theorem parseJsonRobustLoop_all_errors {α : Type} :
    ∀ (results : List (Except String α)) (i : ℕ) (errors : List String),
      (∀ r ∈ results, ∃ m, r = .error m) →
      (parseJsonRobustLoop i results errors).1
          = .error "Failed to parse AI response. Please try again."
        ∧ (parseJsonRobustLoop i results errors).2.length
            = errors.length + results.length := by
  intro results
  induction results with
  | nil => intro i errors _; exact ⟨rfl, rfl⟩
  | cons r rs ih =>
    intro i errors hall
    obtain ⟨m, rfl⟩ := hall r (List.mem_cons_self r rs)
    have hrest : ∀ x ∈ rs, ∃ m, x = .error m := fun x hx => hall x (List.mem_cons_of_mem _ hx)
    have hrec := ih (i + 1) (errors ++ ["Strategy " ++ toString (i + 1) ++ ": " ++ m]) hrest
    simp only [parseJsonRobustLoop]
    refine ⟨hrec.1, ?_⟩
    rw [hrec.2]
    simp only [List.length_append, List.length_cons, List.length_nil]
    omega

/-- C8, amended.  If every strategy throws, the parser fails with the
fixed message `Failed to parse AI response. Please try again.`, which
contains neither the raw input text nor the per-strategy reasons; the
per-strategy reasons are collected in an internal array (one entry per
strategy) but never surfaced. -/
theorem parseJsonRobust_fixed_error {α : Type} (results : List (Except String α))
    (hall : ∀ r ∈ results, ∃ m, r = .error m) :
    (parseJsonRobust results).1
        = .error "Failed to parse AI response. Please try again."
      ∧ (parseJsonRobust results).2.length = results.length := by
  have := parseJsonRobustLoop_all_errors results 0 [] hall
  exact ⟨this.1, by simpa using this.2⟩

/-- Witness for `parseJsonRobust_fixed_error`. -/
theorem parseJsonRobust_fixed_error_witness :
    (∀ r ∈ ([.error "a", .error "b"] : List (Except String Unit)), ∃ m, r = .error m) ∧
    ((parseJsonRobust ([.error "a", .error "b"] : List (Except String Unit))).1
        = .error "Failed to parse AI response. Please try again."
      ∧ (parseJsonRobust ([.error "a", .error "b"] : List (Except String Unit))).2.length
          = ([.error "a", .error "b"] : List (Except String Unit)).length) :=
  ⟨by intro r hr; fin_cases hr <;> exact ⟨_, rfl⟩,
    parseJsonRobust_fixed_error _ (by intro r hr; fin_cases hr <;> exact ⟨_, rfl⟩)⟩

end Parser

namespace Sanitizer

open Validation (jsWhitespace jsTrimList)

/-- Characters of a scan's output come from the input or from a rule's
replacement text, described by `Q`. -/
theorem scanStep_subset (rule : List Char → Option (List Char × ℕ)) (Q : Char → Prop)
    (hr : ∀ s out k, rule s = some (out, k) → ∀ x ∈ out, x ∈ s ∨ Q x) :
    ∀ (fuel : ℕ) (l : List Char) (x : Char), x ∈ scanStep rule fuel l → x ∈ l ∨ Q x := by
  intro fuel
  induction fuel with
  | zero => intro l x hx; simp [scanStep] at hx
  | succ n ih =>
    intro l x hx
    cases l with
    | nil => simp [scanStep] at hx
    | cons c rest =>
      simp only [scanStep] at hx
      cases hrule : rule (c :: rest) with
      | none =>
        rw [hrule] at hx
        rcases List.mem_cons.mp hx with rfl | hx
        · exact Or.inl (List.mem_cons_self _ _)
        · rcases ih rest x hx with h | h
          · exact Or.inl (List.mem_cons_of_mem _ h)
          · exact Or.inr h
      | some p =>
        obtain ⟨out, skip⟩ := p
        rw [hrule] at hx
        simp only [List.mem_append] at hx
        rcases hx with hx | hx
        · exact hr _ _ _ hrule x hx
        · rcases ih _ x hx with h | h
          · exact Or.inl (List.mem_of_mem_drop h)
          · exact Or.inr h

/-- A scan whose rule matches nowhere (on any non-empty suffix) is the
identity, given enough fuel. -/
theorem scanStep_id (rule : List Char → Option (List Char × ℕ)) :
    ∀ (fuel : ℕ) (l : List Char), l.length ≤ fuel →
      (∀ s, s ≠ [] → s <:+ l → rule s = none) → scanStep rule fuel l = l := by
  intro fuel
  induction fuel with
  | zero =>
    intro l hl _
    interval_cases h : l.length
    · exact (List.length_eq_zero.mp h) ▸ rfl
  | succ n ih =>
    intro l hl hnone
    cases l with
    | nil => rfl
    | cons c rest =>
      simp only [scanStep]
      rw [hnone (c :: rest) (by simp) (List.suffix_refl _)]
      have : scanStep rule n rest = rest :=
        ih rest (by simpa using Nat.lt_succ_iff.mp (Nat.lt_of_lt_of_le (Nat.lt_succ_of_le (Nat.le_refl _)) (by simpa using hl)))
          (fun s hs hsuf => hnone s hs (hsuf.trans (List.suffix_cons c rest)))
      rw [this]

/-- `runScan` version of `scanStep_id`. -/
theorem runScan_id (rule : List Char → Option (List Char × ℕ)) (l : List Char)
    (hnone : ∀ s, s ≠ [] → s <:+ l → rule s = none) : runScan rule l = l :=
  scanStep_id rule l.length l (Nat.le_refl _) hnone

/-- `runScan` version of `scanStep_subset`. -/
theorem runScan_subset (rule : List Char → Option (List Char × ℕ)) (Q : Char → Prop)
    (hr : ∀ s out k, rule s = some (out, k) → ∀ x ∈ out, x ∈ s ∨ Q x)
    (l : List Char) (x : Char) (hx : x ∈ runScan rule l) : x ∈ l ∨ Q x :=
  scanStep_subset rule Q hr l.length l x hx

end Sanitizer

namespace Sanitizer

/-- Character equality is code-point equality. -/
theorem char_eq_iff_toNat (c d : Char) : c = d ↔ c.toNat = d.toNat := by
  constructor
  · intro h; rw [h]
  · intro h
    have := congrArg Char.ofNat h
    rwa [Char.ofNat_toNat, Char.ofNat_toNat] at this

/-- Every decimal digit character is in `['0','9']`. -/
theorem decDigitCore_range (m : ℕ) :
    48 ≤ (decDigitCore m).toNat ∧ (decDigitCore m).toNat ≤ 57 := by
  unfold decDigitCore
  split <;> decide

/-- All characters of `natDigitsAux` are decimal digits. -/
theorem natDigitsAux_range :
    ∀ (fuel n : ℕ) (x : Char), x ∈ natDigitsAux fuel n →
      48 ≤ x.toNat ∧ x.toNat ≤ 57 := by
  intro fuel
  induction fuel with
  | zero =>
    intro n x hx
    simp only [natDigitsAux, List.mem_singleton] at hx
    exact hx ▸ decDigitCore_range n
  | succ m ih =>
    intro n x hx
    simp only [natDigitsAux] at hx
    split at hx
    · simp only [List.mem_singleton] at hx
      exact hx ▸ decDigitCore_range n
    · rcases List.mem_append.mp hx with h | h
      · exact ih _ _ h
      · simp only [List.mem_singleton] at h
        exact h ▸ decDigitCore_range _

/-- Placeholder characters are in the code-point range `[48, 95]`
(digits, uppercase letters, underscore). -/
theorem placeholder_range (k : ℕ) (x : Char) (hx : x ∈ placeholder k) :
    48 ≤ x.toNat ∧ x.toNat ≤ 95 := by
  unfold placeholder at hx
  have hpre : ∀ y ∈ "___VALID_UNICODE_".data, 48 ≤ y.toNat ∧ y.toNat ≤ 95 := by decide
  have hsuf : ∀ y ∈ "___".data, 48 ≤ y.toNat ∧ y.toNat ≤ 95 := by decide
  rcases List.mem_append.mp hx with h | h
  · rcases List.mem_append.mp h with h | h
    · exact hpre x h
    · have := natDigitsAux_range k k x h
      omega
  · exact hsuf x h

/-- The literal rule replaces with exactly `rep`. -/
theorem litRule_out {pat rep s out : List Char} {k : ℕ}
    (h : litRule pat rep s = some (out, k)) : out = rep := by
  unfold litRule at h
  split at h
  · exact (congrArg Prod.fst (Option.some.inj h)).symm
  · cases h

/-- The CI delete rule replaces with the empty string. -/
theorem ciDeleteRule_out {pat s out : List Char} {k : ℕ}
    (h : ciDeleteRule pat s = some (out, k)) : out = [] := by
  unfold ciDeleteRule at h
  split at h
  · exact (congrArg Prod.fst (Option.some.inj h)).symm
  · cases h

/-- Characters after a literal global replace come from the input or the
replacement. -/
theorem mem_replaceAllL {pat rep l : List Char} {x : Char}
    (hx : x ∈ replaceAllL pat rep l) : x ∈ l ∨ x ∈ rep := by
  refine runScan_subset _ (· ∈ rep) ?_ l x hx
  intro s out k h y hy
  exact Or.inr ((litRule_out h) ▸ hy)

/-- Characters after a CI fence delete come from the input. -/
theorem mem_replaceAllCIDelete {pat l : List Char} {x : Char}
    (hx : x ∈ replaceAllCIDelete pat l) : x ∈ l := by
  have h2 : ∀ s out k, ciDeleteRule pat s = some (out, k) → ∀ y ∈ out, y ∈ s ∨ False := by
    intro s out k h y hy
    rw [ciDeleteRule_out h] at hy
    cases hy
  rcases runScan_subset _ (fun _ => False) h2 l x hx with h | h
  · exact h
  · cases h

/-- Characters after a first-occurrence replace come from the input or
the replacement. -/
theorem mem_replaceFirstL {pat rep l : List Char} {x : Char}
    (hx : x ∈ replaceFirstL pat rep l) : x ∈ l ∨ x ∈ rep := by
  unfold replaceFirstL at hx
  cases pat with
  | nil =>
    rcases List.mem_append.mp hx with h | h
    · exact Or.inr h
    · exact Or.inl h
  | cons p ps =>
    induction l with
    | nil => cases hx
    | cons c rest ih =>
      simp only [replaceFirstAux] at hx
      split at hx
      · rcases List.mem_append.mp hx with h | h
        · exact Or.inr h
        · exact Or.inl (List.mem_of_mem_drop h)
      · rcases List.mem_cons.mp hx with rfl | h
        · exact Or.inl (List.mem_cons_self _ _)
        · rcases ih h with h | h
          · exact Or.inl (List.mem_cons_of_mem _ h)
          · exact Or.inr h

end Sanitizer

namespace Sanitizer

open Validation (jsWhitespace)

/-- Shape of a successful Unicode-escape lookahead. -/
theorem hexEscSplit_eq_some {l : List Char} {h1 h2 h3 h4 : Char} {rest : List Char}
    (h : hexEscSplit l = some (h1, h2, h3, h4, rest)) :
    l = 'u' :: h1 :: h2 :: h3 :: h4 :: rest := by
  unfold hexEscSplit at h
  split at h
  · split at h
    · obtain ⟨rfl, rfl, rfl, rfl, rfl⟩ := Option.some.inj h
      rfl
    · cases h
  · cases h

/-- Characters of the protected string come from the input or a
placeholder; characters of the stored escapes come from the input. -/
theorem collectAux_subset :
    ∀ (fuel k : ℕ) (l : List Char),
      (∀ x ∈ (collectAux fuel k l).1, x ∈ l ∨ (48 ≤ x.toNat ∧ x.toNat ≤ 95))
      ∧ (∀ e ∈ (collectAux fuel k l).2, ∀ x ∈ e, x ∈ l) := by
  intro fuel
  induction fuel with
  | zero =>
    intro k l
    constructor
    · intro x hx; simp [collectAux] at hx
    · intro e he; simp [collectAux] at he
  | succ n ih =>
    intro k l
    cases l with
    | nil =>
      constructor
      · intro x hx; simp [collectAux] at hx
      · intro e he; simp [collectAux] at he
    | cons c rest =>
      simp only [collectAux]
      by_cases hc : c = '\\'
      · rw [if_pos hc]
        cases hsplit : hexEscSplit rest with
        | some q =>
          obtain ⟨h1, h2, h3, h4, rest2⟩ := q
          have hshape := hexEscSplit_eq_some hsplit
          constructor
          · intro x hx
            rcases List.mem_append.mp hx with h | h
            · exact Or.inr (placeholder_range k x h)
            · rcases (ih (k + 1) rest2).1 x h with h | h
              · exact Or.inl (List.mem_cons_of_mem _ (by rw [hshape]; simp [h]))
              · exact Or.inr h
          · intro e he x hx
            rcases List.mem_cons.mp he with rfl | he
            · subst hc
              rw [hshape]
              rcases List.mem_cons.mp hx with rfl | hx
              · exact List.mem_cons_self _ _
              · refine List.mem_cons_of_mem _ ?_
                have h5 : x ∈ (['u', h1, h2, h3, h4] : List Char) := by simpa using hx
                exact List.mem_append.mpr (Or.inl h5)
            · exact List.mem_cons_of_mem _
                (by rw [hshape]
                    have := (ih (k + 1) rest2).2 e he x hx
                    simp [this])
        | none =>
          constructor
          · intro x hx
            rcases List.mem_cons.mp hx with rfl | hx
            · exact Or.inl (List.mem_cons_self _ _)
            · rcases (ih k rest).1 x hx with h | h
              · exact Or.inl (List.mem_cons_of_mem _ h)
              · exact Or.inr h
          · intro e he x hx
            exact List.mem_cons_of_mem _ ((ih k rest).2 e he x hx)
      · rw [if_neg hc]
        constructor
        · intro x hx
          rcases List.mem_cons.mp hx with rfl | hx
          · exact Or.inl (List.mem_cons_self _ _)
          · rcases (ih k rest).1 x hx with h | h
            · exact Or.inl (List.mem_cons_of_mem _ h)
            · exact Or.inr h
        · intro e he x hx
          exact List.mem_cons_of_mem _ ((ih k rest).2 e he x hx)

/-- Characters after the bare-`\u` removal come from the input or are the
letter `u`. -/
theorem mem_removeInvalidU {l : List Char} {x : Char}
    (hx : x ∈ removeInvalidU l) : x ∈ l ∨ x = 'u' := by
  refine runScan_subset _ (· = 'u') ?_ l x hx
  intro s out k h y hy
  unfold invalidURule at h
  split at h
  · split at h
    · cases h
    · obtain ⟨rfl, -⟩ := Prod.mk.injEq .. ▸ Option.some.inj h
      simp only [List.mem_singleton] at hy
      exact Or.inr hy
  · cases h

/-- Characters after the trailing-`\u` rewrite come from the input or are
the letter `u`. -/
theorem mem_stripTrailingBackslashU {l : List Char} {x : Char}
    (hx : x ∈ stripTrailingBackslashU l) : x ∈ l ∨ x = 'u' := by
  unfold stripTrailingBackslashU at hx
  split at hx
  · rcases List.mem_append.mp hx with h | h
    · exact Or.inl (List.mem_of_mem_take h)
    · simp only [List.mem_singleton] at h
      exact Or.inr h
  · exact Or.inl hx

/-- Characters after the placeholder restore come from the input or from
one of the stored escapes. -/
theorem mem_restoreAux :
    ∀ (es : List (List Char)) (k : ℕ) (l : List Char) (x : Char),
      x ∈ restoreAux k es l → x ∈ l ∨ ∃ e ∈ es, x ∈ e := by
  intro es
  induction es with
  | nil => intro k l x hx; exact Or.inl hx
  | cons e rest ih =>
    intro k l x hx
    simp only [restoreAux] at hx
    rcases ih (k + 1) _ x hx with h | h
    · rcases mem_replaceFirstL h with h | h
      · exact Or.inl h
      · exact Or.inr ⟨e, List.mem_cons_self _ _, h⟩
    · obtain ⟨e', he', hxe⟩ := h
      exact Or.inr ⟨e', List.mem_cons_of_mem _ he', hxe⟩

/-- Characters after trailing-comma removal come from the input. -/
theorem mem_removeTrailingCommas {l : List Char} {x : Char}
    (hx : x ∈ removeTrailingCommas l) : x ∈ l := by
  have h2 : ∀ s out k, commaRule s = some (out, k) → ∀ y ∈ out, y ∈ s ∨ False := by
    intro s out k h y hy
    unfold commaRule at h
    split at h
    case h_2 => cases h
    case h_1 c rest =>
      split at h
      · split at h
        case h_2 => cases h
        case h_1 b rest2 heq =>
          split at h
          · obtain ⟨rfl, -⟩ := Prod.mk.injEq .. ▸ Option.some.inj h
            rcases List.mem_append.mp hy with h' | h'
            · exact Or.inl (List.mem_cons_of_mem _ ((List.takeWhile_prefix _).subset h'))
            · simp only [List.mem_singleton] at h'
              subst h'
              have hb : y ∈ rest.dropWhile (fun c => decide (jsWhitespace c)) := by
                rw [heq]; exact List.mem_cons_self _ _
              exact Or.inl (List.mem_cons_of_mem _ ((List.dropWhile_suffix _).subset hb))
          · cases h
      · cases h
  rcases runScan_subset _ (fun _ => False) h2 l x hx with h | h
  · exact h
  · cases h

/-- Characters after whitespace collapsing come from the input or are a
space. -/
theorem mem_collapseWs {l : List Char} {x : Char}
    (hx : x ∈ collapseWs l) : x ∈ l ∨ x = ' ' := by
  refine runScan_subset _ (· = ' ') ?_ l x hx
  intro s out k h y hy
  unfold wsRule at h
  split at h
  · split at h
    · obtain ⟨rfl, -⟩ := Prod.mk.injEq .. ▸ Option.some.inj h
      simp only [List.mem_singleton] at hy
      exact Or.inr hy
    · cases h
  · cases h

/-- Characters after invalid-escape removal come from the input. -/
theorem mem_removeInvalidEscapes {l : List Char} {x : Char}
    (hx : x ∈ removeInvalidEscapes l) : x ∈ l := by
  have h2 : ∀ s out k, escapeRule s = some (out, k) → ∀ y ∈ out, y ∈ s ∨ False := by
    intro s out k h y hy
    unfold escapeRule at h
    split at h
    case h_2 => cases h
    case h_1 c rest =>
      split at h
      · cases h
      · obtain ⟨rfl, -⟩ := Prod.mk.injEq .. ▸ Option.some.inj h
        simp only [List.mem_singleton] at hy
        subst hy
        exact Or.inl (List.mem_cons_of_mem _ (List.mem_cons_self _ _))
  rcases runScan_subset _ (fun _ => False) h2 l x hx with h | h
  · exact h
  · cases h

/-- Characters after hex-escape removal come from the input. -/
theorem mem_removeHexEscapes {l : List Char} {x : Char}
    (hx : x ∈ removeHexEscapes l) : x ∈ l := by
  have h2 : ∀ s out k, hexEscRule s = some (out, k) → ∀ y ∈ out, y ∈ s ∨ False := by
    intro s out k h y hy
    unfold hexEscRule at h
    split at h
    case h_2 => cases h
    case h_1 rest =>
      obtain ⟨rfl, -⟩ := Prod.mk.injEq .. ▸ Option.some.inj h
      cases hy
  rcases runScan_subset _ (fun _ => False) h2 l x hx with h | h
  · exact h
  · cases h

/-- Characters after octal-escape removal come from the input. -/
theorem mem_removeOctalEscapes {l : List Char} {x : Char}
    (hx : x ∈ removeOctalEscapes l) : x ∈ l := by
  have h2 : ∀ s out k, octEscRule s = some (out, k) → ∀ y ∈ out, y ∈ s ∨ False := by
    intro s out k h y hy
    unfold octEscRule at h
    split at h
    case h_2 => cases h
    case h_1 c rest =>
      split at h
      · obtain ⟨rfl, -⟩ := Prod.mk.injEq .. ▸ Option.some.inj h
        cases hy
      · cases h
  rcases runScan_subset _ (fun _ => False) h2 l x hx with h | h
  · exact h
  · cases h

end Sanitizer

namespace Sanitizer

/-- Predicate-preservation form of `mem_replaceAllL`. -/
theorem replaceAllL_pred {P : Char → Prop} {pat rep l : List Char}
    (hrep : ∀ y ∈ rep, P y) (hl : ∀ y ∈ l, P y) :
    ∀ y ∈ replaceAllL pat rep l, P y :=
  fun y hy => (mem_replaceAllL hy).elim (hl y) (hrep y)

/-- The source's `[""] → "` replace is the identity map. -/
theorem quote_map_id (l : List Char) :
    l.map (fun c => if c = '"' then '"' else c) = l := by
  induction l with
  | nil => rfl
  | cons c r ih =>
    by_cases h : c = '"'
    · subst h; simpa using ih
    · simp [h, ih]

/-- The source's `[''] → '` replace is the identity map. -/
theorem apos_map_id (l : List Char) :
    l.map (fun c => if c = '\'' then '\'' else c) = l := by
  induction l with
  | nil => rfl
  | cons c r ih =>
    by_cases h : c = '\''
    · subst h; simpa using ih
    · simp [h, ih]

/-- After the control-character strip of lines 979–985, no character has
a code point below 32 or equal to 127. -/
theorem step2removeCtl_no_ctl (l : List Char) :
    ∀ c ∈ step2removeCtl l, 32 ≤ c.toNat ∧ c.toNat ≠ 127 := by
  intro c hc
  unfold step2removeCtl at hc
  obtain ⟨c2, hc2, rfl⟩ := List.mem_map.mp hc
  obtain ⟨c1, hc1, rfl⟩ := List.mem_map.mp hc2
  obtain ⟨c0, hc0, rfl⟩ := List.mem_map.mp hc1
  obtain ⟨x, hx, rfl⟩ := List.mem_map.mp hc0
  by_cases h0 : ctlA x
  · rw [if_pos h0]; decide
  · rw [if_neg h0]
    by_cases h1 : x = '\n'
    · subst h1; decide
    · rw [if_neg h1]
      by_cases h2 : x = '\r'
      · subst h2; decide
      · rw [if_neg h2]
        by_cases h3 : x = '\t'
        · subst h3; decide
        · rw [if_neg h3]
          have e1 : x.toNat ≠ 10 := fun hh => h1 ((char_eq_iff_toNat x '\n').mpr hh)
          have e2 : x.toNat ≠ 13 := fun hh => h2 ((char_eq_iff_toNat x '\r').mpr hh)
          have e3 : x.toNat ≠ 9 := fun hh => h3 ((char_eq_iff_toNat x '\t').mpr hh)
          unfold ctlA at h0
          omega

set_option maxHeartbeats 1000000 in
/-- C10.  The sanitizer's output contains no raw control character: every
character of `sanitizeJsonString s` has code point at least 32 and is not
DEL (0x7F). -/
theorem sanitizeJsonString_no_control_chars (s : String) :
    ∀ c ∈ (sanitizeJsonString s).data, 32 ≤ c.toNat ∧ c.toNat ≠ 127 := by
  have husp : (32 ≤ ' '.toNat ∧ ' '.toNat ≠ 127) ∧ (32 ≤ 'u'.toNat ∧ 'u'.toNat ≠ 127) := by decide
  intro c hc
  unfold sanitizeJsonString at hc
  dsimp only at hc
  unfold sanitizeList at hc
  have hP2 : ∀ x ∈ step2removeCtl (step2protect (step1 s.data)),
      32 ≤ x.toNat ∧ x.toNat ≠ 127 := step2removeCtl_no_ctl _
  have hP3 : ∀ x ∈ step2restore (step2removeCtl (step2protect (step1 s.data))),
      32 ≤ x.toNat ∧ x.toNat ≠ 127 := by
    unfold step2restore
    exact replaceAllL_pred (by decide)
      (replaceAllL_pred (by decide)
        (replaceAllL_pred (by decide)
          (replaceAllL_pred (by decide)
            (replaceAllL_pred (by decide)
              (replaceAllL_pred (by decide)
                (replaceAllL_pred (by decide) hP2))))))
  have hP4 : ∀ x ∈ step3 (step2restore (step2removeCtl (step2protect (step1 s.data)))),
      32 ≤ x.toNat ∧ x.toNat ≠ 127 := by
    unfold step3
    rw [quote_map_id, apos_map_id]
    exact replaceAllL_pred (by decide) hP3
  have hP5 : ∀ x ∈ step4 (step3 (step2restore (step2removeCtl (step2protect (step1 s.data))))),
      32 ≤ x.toNat ∧ x.toNat ≠ 127 := by
    intro x hx
    unfold step4 at hx
    have hcol := collectAux_subset
      (step3 (step2restore (step2removeCtl (step2protect (step1 s.data))))).length 0
      (step3 (step2restore (step2removeCtl (step2protect (step1 s.data)))))
    have hfst : ∀ y ∈ (collectValidUnicodes
        (step3 (step2restore (step2removeCtl (step2protect (step1 s.data)))))).1,
        32 ≤ y.toNat ∧ y.toNat ≠ 127 := by
      intro y hy
      rcases hcol.1 y hy with h | h
      · exact hP4 y h
      · omega
    rcases mem_restoreAux _ _ _ x hx with h | h
    · rcases mem_stripTrailingBackslashU h with h | rfl
      · rcases mem_removeInvalidU h with h | rfl
        · exact hfst x h
        · exact husp.2
      · exact husp.2
    · obtain ⟨e, he, hxe⟩ := h
      exact hP4 x (hcol.2 e he x hxe)
  unfold stepsTail at hc
  have hafterfilter := List.mem_of_mem_filter hc
  have h8 := mem_removeOctalEscapes hafterfilter
  have h7 := mem_removeHexEscapes h8
  have h6 := mem_removeInvalidEscapes h7
  rcases mem_collapseWs h6 with h5 | rfl
  · exact hP5 c (mem_removeTrailingCommas h5)
  · exact husp.1

/-- Witness for `sanitizeJsonString_no_control_chars`. -/
theorem sanitizeJsonString_no_control_chars_witness :
    'a' ∈ (sanitizeJsonString "a\x00b").data ∧ (32 ≤ 'a'.toNat ∧ 'a'.toNat ≠ 127) :=
  ⟨by decide, sanitizeJsonString_no_control_chars "a\x00b" 'a' (by decide)⟩

end Sanitizer

namespace Sanitizer

open Validation (jsWhitespace)

/-- A pattern longer than the text cannot match. -/
theorem litRule_none_short {pat rep s : List Char} (h : s.length < pat.length) :
    litRule pat rep s = none := by
  unfold litRule
  rw [if_neg]
  rintro ⟨-, hpre⟩
  exact absurd hpre.length_le (by omega)

/-- A two-character mismatch at the front blocks a literal match. -/
theorem litRule_none2 {p q : Char} {qs rep : List Char} {a b : Char} {t : List Char}
    (h : ¬(a = p ∧ b = q)) : litRule (p :: q :: qs) rep (a :: b :: t) = none := by
  unfold litRule
  rw [if_neg]
  rintro ⟨-, hpre⟩
  obtain ⟨r, hr⟩ := hpre
  injection hr with h1 hr
  injection hr with h2 hr2
  exact h ⟨h1.symm, h2.symm⟩

/-- A CI prefix is no longer than the text. -/
theorem ciPrefix_length_le : ∀ {pat s : List Char}, ciPrefix pat s → pat.length ≤ s.length := by
  intro pat
  induction pat with
  | nil => intro s _; simp
  | cons p ps ih =>
    intro s h
    cases s with
    | nil => cases h
    | cons c t => simpa using Nat.succ_le_succ (ih h.2)

/-- A pattern longer than the text cannot match (CI version). -/
theorem ciDeleteRule_none_short {pat s : List Char} (h : s.length < pat.length) :
    ciDeleteRule pat s = none := by
  unfold ciDeleteRule
  rw [if_neg]
  rintro ⟨-, hpre⟩
  exact absurd (ciPrefix_length_le hpre) (by omega)

/-- A two-character mismatch at the front blocks a CI match. -/
theorem ciDeleteRule_none2 {p q : Char} {qs : List Char} {a b : Char} {t : List Char}
    (h : ¬(ciCharMatch p a ∧ ciCharMatch q b)) :
    ciDeleteRule (p :: q :: qs) (a :: b :: t) = none := by
  unfold ciDeleteRule
  rw [if_neg]
  rintro ⟨-, hpre⟩
  exact h ⟨hpre.1, hpre.2.1⟩

/-- Suffixes of a three-element list. -/
theorem suffix_of_three {s : List Char} {x y z : Char} (h : s <:+ [x, y, z]) :
    s = [x, y, z] ∨ s = [y, z] ∨ s = [z] ∨ s = [] := by
  rcases List.suffix_cons_iff.mp h with rfl | h
  · exact Or.inl rfl
  rcases List.suffix_cons_iff.mp h with rfl | h
  · exact Or.inr (Or.inl rfl)
  rcases List.suffix_cons_iff.mp h with rfl | h
  · exact Or.inr (Or.inr (Or.inl rfl))
  · exact Or.inr (Or.inr (Or.inr (List.suffix_nil.mp h)))

/-- Suffixes of a six-element list. -/
theorem suffix_of_six {s : List Char} {x1 x2 x3 x4 x5 x6 : Char}
    (h : s <:+ [x1, x2, x3, x4, x5, x6]) :
    s = [x1, x2, x3, x4, x5, x6] ∨ s = [x2, x3, x4, x5, x6] ∨ s = [x3, x4, x5, x6]
      ∨ s = [x4, x5, x6] ∨ s = [x5, x6] ∨ s = [x6] ∨ s = [] := by
  rcases List.suffix_cons_iff.mp h with rfl | h
  · exact Or.inl rfl
  rcases List.suffix_cons_iff.mp h with rfl | h
  · exact Or.inr (Or.inl rfl)
  rcases List.suffix_cons_iff.mp h with rfl | h
  · exact Or.inr (Or.inr (Or.inl rfl))
  rcases List.suffix_cons_iff.mp h with rfl | h
  · exact Or.inr (Or.inr (Or.inr (Or.inl rfl)))
  rcases List.suffix_cons_iff.mp h with rfl | h
  · exact Or.inr (Or.inr (Or.inr (Or.inr (Or.inl rfl))))
  rcases List.suffix_cons_iff.mp h with rfl | h
  · exact Or.inr (Or.inr (Or.inr (Or.inr (Or.inr (Or.inl rfl)))))
  · exact Or.inr (Or.inr (Or.inr (Or.inr (Or.inr (Or.inr (List.suffix_nil.mp h))))))

/-- A scan whose rule fires only on a trigger head character is the
identity on trigger-free input. -/
theorem runScan_id_trigger (rule : List Char → Option (List Char × ℕ)) (trig : Char → Prop)
    (hrule : ∀ c t, ¬trig c → rule (c :: t) = none) {l : List Char}
    (h : ∀ c ∈ l, ¬trig c) : runScan rule l = l := by
  apply runScan_id
  intro s hs hsuf
  cases s with
  | nil => exact absurd rfl hs
  | cons c t => exact hrule c t (h c (hsuf.subset (List.mem_cons_self _ _)))

end Sanitizer

namespace Sanitizer

open Validation (jsWhitespace jsTrimList)

/-- Plain alphanumeric characters trigger none of the sanitizer's rules. -/
theorem plainChar_facts (c : Char) (h : plainChar c) :
    ¬jsWhitespace c ∧ ¬ctlA c ∧ c ≠ '\\' ∧ c ≠ ',' ∧ c ≠ '_' ∧
    ¬ciCharMatch '`' c ∧ c ≠ Char.ofNat 0xE2 := by
  unfold plainChar at h
  have h92 : ('\\').toNat = 92 := rfl
  have h44 : (',').toNat = 44 := rfl
  have h95 : ('_').toNat = 95 := rfl
  have h96 : ('`').toNat = 96 := rfl
  have h226 : (Char.ofNat 0xE2).toNat = 226 := by decide
  refine ⟨?_, ?_, ?_, ?_, ?_, ?_, ?_⟩
  · intro hw; unfold jsWhitespace at hw; omega
  · intro hw; unfold ctlA at hw; omega
  · intro he; rw [char_eq_iff_toNat, h92] at he; omega
  · intro he; rw [char_eq_iff_toNat, h44] at he; omega
  · intro he; rw [char_eq_iff_toNat, h95] at he; omega
  · rintro (he | ⟨hp, -⟩)
    · rw [char_eq_iff_toNat, h96] at he; omega
    · rw [h96] at hp; omega
  · intro he; rw [char_eq_iff_toNat, h226] at he; omega

/-- `dropWhile` of the whitespace test is the identity on
whitespace-free input. -/
theorem dropWhileWs_id {l : List Char} (h : ∀ c ∈ l, ¬jsWhitespace c) :
    l.dropWhile (fun c => decide (jsWhitespace c)) = l := by
  cases l with
  | nil => rfl
  | cons c t =>
    rw [List.dropWhile_cons, if_neg (by simpa using h c (List.mem_cons_self c t))]

/-- `trim` is the identity on whitespace-free input. -/
theorem jsTrimList_id {l : List Char} (h : ∀ c ∈ l, ¬jsWhitespace c) : jsTrimList l = l := by
  unfold Validation.jsTrimList
  rw [dropWhileWs_id h, dropWhileWs_id (fun c hc => h c (List.mem_reverse.mp hc)),
    List.reverse_reverse]

/-- The anchored `json` strip is the identity when nothing can match. -/
theorem stripLeadingJson_id {l : List Char} (hws : ∀ c ∈ l, ¬jsWhitespace c)
    (hj : ¬ciPrefix "json".data l) : stripLeadingJson l = l := by
  unfold stripLeadingJson
  rw [dropWhileWs_id hws, if_neg hj]

/-- A literal replace whose pattern head never occurs is the identity. -/
theorem replaceAllL_id_of_head {p : Char} {ps rep l : List Char} (h : p ∉ l) :
    replaceAllL (p :: ps) rep l = l := by
  apply runScan_id
  intro s hs hsuf
  cases s with
  | nil => exact absurd rfl hs
  | cons c t =>
    unfold litRule
    rw [if_neg]
    rintro ⟨-, hpre⟩
    obtain ⟨r, hr⟩ := hpre
    injection hr with h1 hr2
    exact h (h1 ▸ hsuf.subset (List.mem_cons_self c t))

/-- A CI delete whose pattern head never CI-matches is the identity. -/
theorem replaceAllCIDelete_id_of_head {p : Char} {ps l : List Char}
    (h : ∀ c ∈ l, ¬ciCharMatch p c) : replaceAllCIDelete (p :: ps) l = l := by
  apply runScan_id
  intro s hs hsuf
  cases s with
  | nil => exact absurd rfl hs
  | cons c t =>
    unfold ciDeleteRule
    rw [if_neg]
    rintro ⟨-, hpre⟩
    exact h c (hsuf.subset (List.mem_cons_self c t)) hpre.1

/-- The Unicode protection pass is the identity on backslash-free input
and stores nothing. -/
theorem collectAux_id :
    ∀ (fuel k : ℕ) (l : List Char), '\\' ∉ l → l.length ≤ fuel →
      collectAux fuel k l = (l, []) := by
  intro fuel
  induction fuel with
  | zero =>
    intro k l _ hl
    rw [List.length_eq_zero.mp (Nat.le_zero.mp hl)]
    rfl
  | succ n ih =>
    intro k l hb hl
    cases l with
    | nil => rfl
    | cons c rest =>
      have hc : c ≠ '\\' := fun hh => hb (hh ▸ List.mem_cons_self c rest)
      have hrest : '\\' ∉ rest := fun hh => hb (List.mem_cons_of_mem _ hh)
      simp only [collectAux, if_neg hc]
      rw [ih k rest hrest (by simpa using Nat.lt_succ_iff.mp (Nat.lt_of_lt_of_le (Nat.lt_succ_of_le (Nat.le_refl _)) (by simpa using hl)))]

theorem collectValidUnicodes_id {l : List Char} (h : '\\' ∉ l) :
    collectValidUnicodes l = (l, []) :=
  collectAux_id l.length 0 l h (Nat.le_refl _)

/-- The bare-`\u` removal is the identity on backslash-free input. -/
theorem removeInvalidU_id {l : List Char} (h : '\\' ∉ l) : removeInvalidU l = l := by
  refine runScan_id_trigger _ (· = '\\') ?_ (fun c hc hh => h (hh ▸ hc))
  intro c t hc
  have hc2 : ¬ c = '\\' := hc
  unfold invalidURule
  split
  · rename_i d rest heq
    injection heq with h1 h2
    exact absurd h1 hc2
  · rfl

/-- The trailing-`\u` rewrite is the identity on backslash-free input. -/
theorem stripTrailingBackslashU_id {l : List Char} (h : '\\' ∉ l) :
    stripTrailingBackslashU l = l := by
  unfold stripTrailingBackslashU
  rw [if_neg]
  intro hsuf
  exact h (hsuf.subset (List.mem_cons_self _ _))

/-- The trailing-comma removal is the identity on comma-free input. -/
theorem removeTrailingCommas_id {l : List Char} (h : ',' ∉ l) :
    removeTrailingCommas l = l := by
  refine runScan_id_trigger _ (· = ',') ?_ (fun c hc hh => h (hh ▸ hc))
  intro c t hc
  unfold commaRule
  dsimp only
  rw [if_neg (show ¬ c = ',' from hc)]

/-- Whitespace collapsing is the identity on whitespace-free input. -/
theorem collapseWs_id {l : List Char} (h : ∀ c ∈ l, ¬jsWhitespace c) :
    collapseWs l = l := by
  refine runScan_id_trigger _ jsWhitespace ?_ h
  intro c t hc
  unfold wsRule
  dsimp only
  rw [if_neg (show ¬ jsWhitespace c from hc)]

/-- The invalid-escape removal is the identity on backslash-free input. -/
theorem removeInvalidEscapes_id {l : List Char} (h : '\\' ∉ l) :
    removeInvalidEscapes l = l := by
  refine runScan_id_trigger _ (· = '\\') ?_ (fun c hc hh => h (hh ▸ hc))
  intro c t hc
  have hc2 : ¬ c = '\\' := hc
  unfold escapeRule
  split
  · rename_i d rest heq
    injection heq with h1 h2
    exact absurd h1 hc2
  · rfl

/-- The hex-escape removal is the identity on backslash-free input. -/
theorem removeHexEscapes_id {l : List Char} (h : '\\' ∉ l) : removeHexEscapes l = l := by
  refine runScan_id_trigger _ (· = '\\') ?_ (fun c hc hh => h (hh ▸ hc))
  intro c t hc
  have hc2 : ¬ c = '\\' := hc
  unfold hexEscRule
  split
  · rename_i d rest heq
    injection heq with h1 h2
    exact absurd h1 hc2
  · rfl

/-- The octal-escape removal is the identity on backslash-free input. -/
theorem removeOctalEscapes_id {l : List Char} (h : '\\' ∉ l) : removeOctalEscapes l = l := by
  refine runScan_id_trigger _ (· = '\\') ?_ (fun c hc hh => h (hh ▸ hc))
  intro c t hc
  have hc2 : ¬ c = '\\' := hc
  unfold octEscRule
  split
  · rename_i d rest heq
    injection heq with h1 h2
    exact absurd h1 hc2
  · rfl

/-- The final control filter is the identity on control-free input. -/
theorem removeCtlFinal_id {l : List Char} (h : ∀ c ∈ l, ¬ctlA c) : removeCtlFinal l = l := by
  unfold removeCtlFinal
  induction l with
  | nil => rfl
  | cons c t ih =>
    rw [List.filter_cons, if_pos (by simpa using h c (List.mem_cons_self c t))]
    rw [ih (fun x hx => h x (List.mem_cons_of_mem _ hx))]

/-- A map that fixes every element is the identity. -/
theorem map_id_of_eq {f : Char → Char} {l : List Char} (h : ∀ c ∈ l, f c = c) :
    l.map f = l := by
  induction l with
  | nil => rfl
  | cons c t ih =>
    rw [List.map_cons, h c (List.mem_cons_self c t), ih (fun x hx => h x (List.mem_cons_of_mem _ hx))]

end Sanitizer

namespace Sanitizer

open Validation (jsWhitespace)

/-- C9, counterexample.  The sanitizer is not idempotent: on `,,]` the
trailing-comma rule removes one comma per application
(`,,]` → `,]` → `]`), so a second application changes the output again. -/
theorem sanitizeJsonString_not_idempotent_cex :
    sanitizeJsonString (sanitizeJsonString ",,]") ≠ sanitizeJsonString ",,]"
    ∧ sanitizeJsonString ",,]" = ",]"
    ∧ sanitizeJsonString ",]" = "]" := by
  refine ⟨?_, ?_, ?_⟩ <;> decide

/-- The whole sanitizer is the identity on plain alphanumeric input that
does not start with `json` (case-insensitively). -/
theorem sanitizeList_id_of_plain (l : List Char) (hpl : ∀ c ∈ l, plainChar c)
    (hj : ¬ciPrefix "json".data l) : sanitizeList l = l := by
  have hws : ∀ c ∈ l, ¬jsWhitespace c := fun c hc => (plainChar_facts c (hpl c hc)).1
  have hctl : ∀ c ∈ l, ¬ctlA c := fun c hc => (plainChar_facts c (hpl c hc)).2.1
  have hbs : '\\' ∉ l := fun hm => (plainChar_facts _ (hpl _ hm)).2.2.1 rfl
  have hcomma : ',' ∉ l := fun hm => (plainChar_facts _ (hpl _ hm)).2.2.2.1 rfl
  have hus : '_' ∉ l := fun hm => (plainChar_facts _ (hpl _ hm)).2.2.2.2.1 rfl
  have hbt : ∀ c ∈ l, ¬ciCharMatch '`' c := fun c hc => (plainChar_facts c (hpl c hc)).2.2.2.2.2.1
  have hell : Char.ofNat 0xE2 ∉ l := fun hm => (plainChar_facts _ (hpl _ hm)).2.2.2.2.2.2 rfl
  have h1 : step1 l = l := by
    unfold step1
    rw [replaceAllCIDelete_id_of_head hbt, replaceAllCIDelete_id_of_head hbt,
      replaceAllCIDelete_id_of_head hbt,
      replaceAllL_id_of_head (fun hm => hbt _ hm (Or.inl rfl)),
      stripLeadingJson_id hws hj, jsTrimList_id hws]
  have h2 : step2protect l = l := by
    unfold step2protect
    rw [replaceAllL_id_of_head hbs, replaceAllL_id_of_head hbs, replaceAllL_id_of_head hbs,
      replaceAllL_id_of_head hbs, replaceAllL_id_of_head hbs, replaceAllL_id_of_head hbs,
      replaceAllL_id_of_head hbs]
  have h3 : step2removeCtl l = l := by
    unfold step2removeCtl
    rw [map_id_of_eq (fun c hc => if_neg (hctl c hc))]
    rw [map_id_of_eq (fun c hc => if_neg (fun hh => hws c hc (by rw [hh]; decide)))]
    rw [map_id_of_eq (fun c hc => if_neg (fun hh => hws c hc (by rw [hh]; decide)))]
    rw [map_id_of_eq (fun c hc => if_neg (fun hh => hws c hc (by rw [hh]; decide)))]
  have h4 : step2restore l = l := by
    unfold step2restore
    rw [replaceAllL_id_of_head hus, replaceAllL_id_of_head hus, replaceAllL_id_of_head hus,
      replaceAllL_id_of_head hus, replaceAllL_id_of_head hus, replaceAllL_id_of_head hus,
      replaceAllL_id_of_head hus]
  have h5 : step3 l = l := by
    unfold step3
    rw [quote_map_id, apos_map_id, replaceAllL_id_of_head hell]
  have h6 : step4 l = l := by
    unfold step4
    rw [collectValidUnicodes_id hbs]
    dsimp only
    rw [removeInvalidU_id hbs, stripTrailingBackslashU_id hbs]
    rfl
  have h7 : stepsTail l = l := by
    unfold stepsTail
    rw [removeTrailingCommas_id hcomma, collapseWs_id hws, removeInvalidEscapes_id hbs,
      removeHexEscapes_id hbs, removeOctalEscapes_id hbs, removeCtlFinal_id hctl]
  unfold sanitizeList
  rw [h1, h2, h3, h4, h5, h6, h7]

/-- C9, amended.  Idempotence fails in general (see the counterexample);
it does hold on the sanitizer's fixed points, in particular on plain
alphanumeric input with no leading `json`: there one application is
already the identity, so a second changes nothing. -/
theorem sanitizeList_idempotent_on_plain (l : List Char) (hpl : ∀ c ∈ l, plainChar c)
    (hj : ¬ciPrefix "json".data l) :
    sanitizeList (sanitizeList l) = sanitizeList l ∧ sanitizeList l = l := by
  have h := sanitizeList_id_of_plain l hpl hj
  rw [h]
  exact ⟨h, rfl⟩

/-- Witness for `sanitizeList_idempotent_on_plain`. -/
theorem sanitizeList_idempotent_on_plain_witness :
    (∀ c ∈ ("abc123".data : List Char), plainChar c) ∧
    ¬ciPrefix "json".data "abc123".data ∧
    (sanitizeList (sanitizeList "abc123".data) = sanitizeList "abc123".data
      ∧ sanitizeList "abc123".data = "abc123".data) :=
  ⟨by decide, by decide,
    sanitizeList_idempotent_on_plain "abc123".data (by decide) (by decide)⟩

end Sanitizer

namespace Sanitizer

/-- A literal match needs its head character. -/
theorem litRule_none_head {p : Char} {ps rep : List Char} {c : Char} {t : List Char}
    (h : c ≠ p) : litRule (p :: ps) rep (c :: t) = none := by
  unfold litRule
  rw [if_neg]
  rintro ⟨-, hpre⟩
  obtain ⟨r, hr⟩ := hpre
  injection hr with h1 hr2
  exact h h1.symm

/-- `scanStep` version of the trigger-identity lemma. -/
theorem scanStep_id_trigger (rule : List Char → Option (List Char × ℕ)) (trig : Char → Prop)
    (hrule : ∀ c t, ¬trig c → rule (c :: t) = none) {l : List Char}
    (h : ∀ c ∈ l, ¬trig c) (fuel : ℕ) (hf : l.length ≤ fuel) : scanStep rule fuel l = l := by
  apply scanStep_id rule fuel l hf
  intro s hs hsuf
  cases s with
  | nil => exact absurd rfl hs
  | cons c t => exact hrule c t (h c (hsuf.subset (List.mem_cons_self _ _)))

/-- One engine step: if the rule does not fire at the head, the head is
copied and the scan continues on the tail. -/
theorem runScan_cons_none {rule : List Char → Option (List Char × ℕ)} {c : Char}
    {t : List Char} (h : rule (c :: t) = none)
    (hrest : scanStep rule t.length t = t) : runScan rule (c :: t) = c :: t := by
  unfold runScan
  rw [List.length_cons]
  simp only [scanStep, h]
  rw [hrest]

end Sanitizer

namespace Sanitizer

open Validation (jsWhitespace jsTrimList)

/-- Hex digits are plain alphanumerics. -/
theorem plainChar_of_hex {c : Char} (h : isHexDigit c) : plainChar c := by
  unfold isHexDigit at h
  unfold plainChar
  omega

/-- The match of step 7 needs a backslash head. -/
theorem escapeRule_none_head {c : Char} {t : List Char} (hc : ¬(c = '\\')) :
    escapeRule (c :: t) = none := by
  unfold escapeRule
  split
  · rename_i d rest heq
    injection heq with hA hB
    exact absurd hA hc
  · rfl

/-- Step 7 skips a valid escape. -/
theorem escapeRule_none_valid {c : Char} {t : List Char} (hc : validEscapeChar c) :
    escapeRule ('\\' :: c :: t) = none := by
  unfold escapeRule
  split
  · rename_i d rest heq
    injection heq with hA hB
    injection hB with hB1 hB2
    rw [if_pos (hB1 ▸ hc)]
  · rfl

/-- The hex-escape match needs a backslash head. -/
theorem hexEscRule_none_head {c : Char} {t : List Char} (hc : ¬(c = '\\')) :
    hexEscRule (c :: t) = none := by
  unfold hexEscRule
  split
  · rename_i rest heq
    injection heq with hA hB
    exact absurd hA hc
  · rfl

/-- The hex-escape match needs `x` after the backslash. -/
theorem hexEscRule_none_nonx {c : Char} {t : List Char} (hc : ¬(c = 'x')) :
    hexEscRule ('\\' :: c :: t) = none := by
  unfold hexEscRule
  split
  · rename_i rest heq
    injection heq with hA hB
    injection hB with hB1 hB2
    exact absurd hB1 hc
  · rfl

/-- The octal-escape match needs a backslash head. -/
theorem octEscRule_none_head {c : Char} {t : List Char} (hc : ¬(c = '\\')) :
    octEscRule (c :: t) = none := by
  unfold octEscRule
  split
  · rename_i d rest heq
    injection heq with hA hB
    exact absurd hA hc
  · rfl

/-- The octal-escape match needs an octal digit after the backslash. -/
theorem octEscRule_none_nonoct {c : Char} {t : List Char} (hc : ¬isOctalDigit c) :
    octEscRule ('\\' :: c :: t) = none := by
  unfold octEscRule
  split
  · rename_i d rest heq
    injection heq with hA hB
    injection hB with hB1 hB2
    rw [if_neg (hB1 ▸ hc)]
  · rfl

/-- One engine step: a rule firing at the head emits its output and
continues after the matched span. -/
theorem runScan_cons_some {rule : List Char → Option (List Char × ℕ)} {c : Char}
    {t out : List Char} {skip : ℕ} (h : rule (c :: t) = some (out, skip)) :
    runScan rule (c :: t) = out ++ scanStep rule t.length ((c :: t).drop skip) := by
  unfold runScan
  rw [List.length_cons]
  simp only [scanStep, h]

/-- A nonempty pattern matched against itself is replaced outright. -/
theorem replaceFirstL_self {pat rep : List Char} (h : pat ≠ []) :
    replaceFirstL pat rep pat = rep := by
  cases pat with
  | nil => exact absurd rfl h
  | cons c t =>
    show replaceFirstAux (c :: t) rep (c :: t) = rep
    unfold replaceFirstAux
    rw [if_pos (List.prefix_refl _), List.drop_length, List.append_nil]

/-- Unfolding step for the Unicode protection pass: a backslash whose
lookahead succeeds. -/
theorem collectAux_cons_bs_some {fuel k : ℕ} {rest : List Char} {h1 h2 h3 h4 : Char}
    {rest2 : List Char} (h : hexEscSplit rest = some (h1, h2, h3, h4, rest2)) :
    collectAux (fuel + 1) k ('\\' :: rest) =
      (placeholder k ++ (collectAux fuel (k + 1) rest2).1,
        ['\\', 'u', h1, h2, h3, h4] :: (collectAux fuel (k + 1) rest2).2) := by
  simp only [collectAux]
  rw [if_pos trivial, h]

/-- Unfolding step: a backslash whose lookahead fails. -/
theorem collectAux_cons_bs_none {fuel k : ℕ} {rest : List Char}
    (h : hexEscSplit rest = none) :
    collectAux (fuel + 1) k ('\\' :: rest) =
      ('\\' :: (collectAux fuel k rest).1, (collectAux fuel k rest).2) := by
  simp only [collectAux]
  rw [if_pos trivial, h]

/-- Unfolding step: a non-backslash character is copied. -/
theorem collectAux_cons_nonbs {fuel k : ℕ} {c : Char} {rest : List Char}
    (hc : ¬(c = '\\')) :
    collectAux (fuel + 1) k (c :: rest) =
      (c :: (collectAux fuel k rest).1, (collectAux fuel k rest).2) := by
  simp only [collectAux, if_neg hc]

end Sanitizer

namespace Sanitizer

open Validation (jsWhitespace jsTrimList)

/-- No fence or leading-`json` pattern touches `['\\', 'u', c]`, whatever
`c` is: every pattern is at least three characters long and already
mismatches within the first two positions of every suffix. -/
theorem step1_head_bsu3 (c : Char) :
    step1 ['\\', 'u', c] = jsTrimList ['\\', 'u', c] := by
  have hfci : ∀ (p q : Char) (qs : List Char), ¬ciCharMatch p '\\' → ¬ciCharMatch p 'u' →
      replaceAllCIDelete (p :: q :: qs) ['\\', 'u', c] = ['\\', 'u', c] := by
    intro p q qs hp hq
    apply runScan_id
    intro s hs hsuf
    rcases suffix_of_three hsuf with rfl | rfl | rfl | rfl
    · exact ciDeleteRule_none2 (fun hh => hp hh.1)
    · exact ciDeleteRule_none2 (fun hh => hq hh.1)
    · exact ciDeleteRule_none_short (by simp only [List.length_cons, List.length_nil]; omega)
    · exact absurd rfl hs
  have hf1 : replaceAllCIDelete "```json".data ['\\', 'u', c] = ['\\', 'u', c] :=
    hfci '`' '`' ['`', 'j', 's', 'o', 'n'] (by decide) (by decide)
  have hf2 : replaceAllCIDelete "```javascript".data ['\\', 'u', c] = ['\\', 'u', c] :=
    hfci '`' '`' ['`', 'j', 'a', 'v', 'a', 's', 'c', 'r', 'i', 'p', 't'] (by decide) (by decide)
  have hf3 : replaceAllCIDelete "```js".data ['\\', 'u', c] = ['\\', 'u', c] :=
    hfci '`' '`' ['`', 'j', 's'] (by decide) (by decide)
  have hf4 : replaceAllL "```".data [] ['\\', 'u', c] = ['\\', 'u', c] := by
    apply runScan_id
    intro s hs hsuf
    rcases suffix_of_three hsuf with rfl | rfl | rfl | rfl
    · exact litRule_none2 (fun hh => absurd hh.1 (by decide))
    · exact litRule_none2 (fun hh => absurd hh.1 (by decide))
    · exact litRule_none_short (by simp only [List.length_cons, List.length_nil]; omega)
    · exact absurd rfl hs
  have hstrip : stripLeadingJson ['\\', 'u', c] = ['\\', 'u', c] := by
    unfold stripLeadingJson
    rw [List.dropWhile_cons,
      if_neg (show ¬(decide (jsWhitespace '\\') = true) from by decide)]
    rw [if_neg (show ¬ciPrefix "json".data ['\\', 'u', c] from fun hp => absurd hp.1 (by decide))]
  unfold step1
  rw [hf1, hf2, hf3, hf4, hstrip]

end Sanitizer

namespace Sanitizer

open Validation (jsWhitespace jsTrimList)

/-- `\u` followed by one non-underscore character collapses to a single
`u`: the `/\\u[^_]/g` rule consumes the following character too. -/
theorem sanitizeList_bsu3 {c : Char} (hc : ¬(c = '_')) :
    sanitizeList ['\\', 'u', c] = ['u'] := by
  by_cases hws : jsWhitespace c
  · -- a whitespace follower is trimmed away by step 1, leaving `\u`,
    -- which the trailing-`\u` rule of step 4 turns into `u`
    have h1 : step1 ['\\', 'u', c] = ['\\', 'u'] := by
      rw [step1_head_bsu3]
      unfold Validation.jsTrimList
      rw [List.dropWhile_cons,
        if_neg (show ¬(decide (jsWhitespace '\\') = true) from by decide)]
      rw [show (['\\', 'u', c] : List Char).reverse = [c, 'u', '\\'] from by simp]
      rw [List.dropWhile_cons, if_pos (decide_eq_true hws)]
      rw [List.dropWhile_cons,
        if_neg (show ¬(decide (jsWhitespace 'u') = true) from by decide)]
      decide
    unfold sanitizeList
    rw [h1]
    decide
  · -- otherwise every step up to step 4 is the identity, and the
    -- `/\\u[^_]/g` rule eats all three characters, emitting `u`
    have hws3 : ∀ x ∈ ['\\', 'u', c], ¬jsWhitespace x := by
      intro x hx
      rcases List.mem_cons.mp hx with rfl | hx
      · decide
      rcases List.mem_cons.mp hx with rfl | hx
      · decide
      rcases List.mem_cons.mp hx with rfl | hx
      · exact hws
      · simp at hx
    have h1 : step1 ['\\', 'u', c] = ['\\', 'u', c] := by
      rw [step1_head_bsu3, jsTrimList_id hws3]
    have hprotTail : ∀ (x : Char) (rep : List Char),
        scanStep (litRule ['\\', x] rep) 2 ['u', c] = ['u', c] := by
      intro x rep
      apply scanStep_id (litRule ['\\', x] rep) 2 ['u', c] (Nat.le_refl _)
      intro s hs hsuf
      rcases List.suffix_cons_iff.mp hsuf with rfl | hsuf2
      · exact litRule_none2 (fun hh => absurd hh.1 (by decide))
      rcases List.suffix_cons_iff.mp hsuf2 with rfl | hsuf3
      · exact litRule_none_short (by simp only [List.length_cons, List.length_nil]; omega)
      · rw [List.suffix_nil.mp hsuf3] at hs
        exact absurd rfl hs
    have hprot : ∀ (x : Char) (rep : List Char), ¬(x = 'u') →
        replaceAllL ['\\', x] rep ['\\', 'u', c] = ['\\', 'u', c] := by
      intro x rep hx
      apply runScan_cons_none
      · exact litRule_none2 (fun hh => hx hh.2.symm)
      · exact hprotTail x rep
    have hp1 : replaceAllL "\\n".data "___ESCAPE___n".data ['\\', 'u', c] = ['\\', 'u', c] :=
      hprot 'n' _ (by decide)
    have hp2 : replaceAllL "\\r".data "___ESCAPE___r".data ['\\', 'u', c] = ['\\', 'u', c] :=
      hprot 'r' _ (by decide)
    have hp3 : replaceAllL "\\t".data "___ESCAPE___t".data ['\\', 'u', c] = ['\\', 'u', c] :=
      hprot 't' _ (by decide)
    have hp4 : replaceAllL "\\f".data "___ESCAPE___f".data ['\\', 'u', c] = ['\\', 'u', c] :=
      hprot 'f' _ (by decide)
    have hp5 : replaceAllL "\\b".data "___ESCAPE___b".data ['\\', 'u', c] = ['\\', 'u', c] :=
      hprot 'b' _ (by decide)
    have hp6 : replaceAllL "\\\"".data "___ESCAPE___quote".data ['\\', 'u', c] = ['\\', 'u', c] :=
      hprot '"' _ (by decide)
    have hp7 : replaceAllL "\\\\".data "___ESCAPE___backslash".data ['\\', 'u', c] = ['\\', 'u', c] :=
      hprot '\\' _ (by decide)
    have h2 : step2protect ['\\', 'u', c] = ['\\', 'u', c] := by
      unfold step2protect
      rw [hp1, hp2, hp3, hp4, hp5, hp6, hp7]
    have hell3 : replaceAllL [Char.ofNat 0xE2, Char.ofNat 0x20AC, Char.ofNat 0xA6]
        "...".data ['\\', 'u', c] = ['\\', 'u', c] := by
      apply runScan_id
      intro s hs hsuf
      rcases suffix_of_three hsuf with rfl | rfl | rfl | rfl
      · exact litRule_none2 (fun hh => absurd hh.1 (by decide))
      · exact litRule_none2 (fun hh => absurd hh.1 (by decide))
      · exact litRule_none_short (by simp only [List.length_cons, List.length_nil]; omega)
      · exact absurd rfl hs
    have hus3 : '_' ∉ (['\\', 'u', c] : List Char) := by
      intro hm
      rcases List.mem_cons.mp hm with h' | hm
      · exact absurd h' (by decide)
      rcases List.mem_cons.mp hm with h' | hm
      · exact absurd h' (by decide)
      rcases List.mem_cons.mp hm with h' | hm
      · exact hc h'.symm
      · simp at hm
    have h4r : step2restore ['\\', 'u', c] = ['\\', 'u', c] := by
      unfold step2restore
      rw [replaceAllL_id_of_head hus3, replaceAllL_id_of_head hus3,
        replaceAllL_id_of_head hus3, replaceAllL_id_of_head hus3,
        replaceAllL_id_of_head hus3, replaceAllL_id_of_head hus3,
        replaceAllL_id_of_head hus3]
    have h5 : step3 ['\\', 'u', c] = ['\\', 'u', c] := by
      unfold step3
      rw [quote_map_id, apos_map_id, hell3]
    have hsplit2 : hexEscSplit ['u', c] = none := rfl
    have hcol : collectValidUnicodes ['\\', 'u', c] = (['\\', 'u', c], []) := by
      have e1 : collectAux 3 0 ['\\', 'u', c]
          = ('\\' :: (collectAux 2 0 ['u', c]).1, (collectAux 2 0 ['u', c]).2) :=
        collectAux_cons_bs_none hsplit2
      have e2 : collectAux 2 0 ['u', c]
          = ('u' :: (collectAux 1 0 [c]).1, (collectAux 1 0 [c]).2) :=
        collectAux_cons_nonbs (by decide)
      have e3 : collectAux 1 0 [c] = ([c], []) := by
        by_cases hq : c = '\\'
        · subst hq
          decide
        · have e3' : collectAux 1 0 [c]
              = (c :: (collectAux 0 0 ([] : List Char)).1, (collectAux 0 0 ([] : List Char)).2) :=
            collectAux_cons_nonbs hq
          rw [e3']
          rfl
      show collectAux 3 0 ['\\', 'u', c] = (['\\', 'u', c], [])
      rw [e1, e2, e3]
    have hr : invalidURule ['\\', 'u', c] = some (['u'], 3) := by
      show (if c = '_' then none else some (['u'], 3)) = some (['u'], 3)
      rw [if_neg hc]
    have hremU : removeInvalidU ['\\', 'u', c] = ['u'] := by
      unfold removeInvalidU
      rw [runScan_cons_some hr]
      rfl
    have h6 : step4 ['\\', 'u', c] = ['u'] := by
      unfold step4
      rw [hcol]
      dsimp only
      rw [hremU]
      decide
    unfold sanitizeList
    rw [h1, h2]
    have h3 : step2removeCtl ['\\', 'u', c] = ['\\', 'u', c] ∨
        step2removeCtl ['\\', 'u', c] = ['\\', 'u', ' '] := by
      by_cases hctl : ctlA c
      · refine Or.inr ?_
        unfold step2removeCtl
        rw [show (['\\', 'u', c] : List Char).map (fun x => if ctlA x then ' ' else x)
            = ['\\', 'u', ' '] from by
          simp only [List.map_cons, List.map_nil]
          rw [if_neg (show ¬ctlA '\\' from by decide),
            if_neg (show ¬ctlA 'u' from by decide), if_pos hctl]]
        decide
      · refine Or.inl ?_
        unfold step2removeCtl
        have hctl3 : ∀ x ∈ ['\\', 'u', c], ¬ctlA x := by
          intro x hx
          rcases List.mem_cons.mp hx with rfl | hx
          · decide
          rcases List.mem_cons.mp hx with rfl | hx
          · decide
          rcases List.mem_cons.mp hx with rfl | hx
          · exact hctl
          · simp at hx
        rw [map_id_of_eq (fun x hx => if_neg (hctl3 x hx))]
        rw [map_id_of_eq (fun x hx => if_neg (fun hh => hws3 x hx (by rw [hh]; decide)))]
        rw [map_id_of_eq (fun x hx => if_neg (fun hh => hws3 x hx (by rw [hh]; decide)))]
        rw [map_id_of_eq (fun x hx => if_neg (fun hh => hws3 x hx (by rw [hh]; decide)))]
    rcases h3 with h3 | h3
    · rw [h3, h4r, h5, h6]
      decide
    · rw [h3]
      decide

end Sanitizer

namespace Sanitizer

open Validation (jsWhitespace jsTrimList)

/-- A `\u` escape with exactly four hex digits survives the whole
sanitizer unchanged: step 4 protects it behind the indexed placeholder
and restores it verbatim, and no other rule matches hex digits. -/
theorem sanitizeList_valid_unicode {a b d e : Char} (ha : isHexDigit a) (hb : isHexDigit b)
    (hd : isHexDigit d) (he : isHexDigit e) :
    sanitizeList ['\\', 'u', a, b, d, e] = ['\\', 'u', a, b, d, e] := by
  have hmem : ∀ x ∈ ['\\', 'u', a, b, d, e], x = '\\' ∨ x = 'u' ∨ plainChar x := by
    intro x hx
    rcases List.mem_cons.mp hx with rfl | hx
    · exact Or.inl rfl
    rcases List.mem_cons.mp hx with rfl | hx
    · exact Or.inr (Or.inl rfl)
    rcases List.mem_cons.mp hx with rfl | hx
    · exact Or.inr (Or.inr (plainChar_of_hex ha))
    rcases List.mem_cons.mp hx with rfl | hx
    · exact Or.inr (Or.inr (plainChar_of_hex hb))
    rcases List.mem_cons.mp hx with rfl | hx
    · exact Or.inr (Or.inr (plainChar_of_hex hd))
    rcases List.mem_cons.mp hx with rfl | hx
    · exact Or.inr (Or.inr (plainChar_of_hex he))
    · simp at hx
  have hws6 : ∀ x ∈ ['\\', 'u', a, b, d, e], ¬jsWhitespace x := by
    intro x hx
    rcases hmem x hx with rfl | rfl | hp
    · decide
    · decide
    · exact (plainChar_facts x hp).1
  have hctl6 : ∀ x ∈ ['\\', 'u', a, b, d, e], ¬ctlA x := by
    intro x hx
    rcases hmem x hx with rfl | rfl | hp
    · decide
    · decide
    · exact (plainChar_facts x hp).2.1
  have hus6 : '_' ∉ (['\\', 'u', a, b, d, e] : List Char) := by
    intro hm
    rcases hmem _ hm with h' | h' | hp
    · exact absurd h' (by decide)
    · exact absurd h' (by decide)
    · exact (plainChar_facts _ hp).2.2.2.2.1 rfl
  have hcomma6 : ',' ∉ (['\\', 'u', a, b, d, e] : List Char) := by
    intro hm
    rcases hmem _ hm with h' | h' | hp
    · exact absurd h' (by decide)
    · exact absurd h' (by decide)
    · exact (plainChar_facts _ hp).2.2.2.1 rfl
  have hbt6 : ∀ x ∈ ['\\', 'u', a, b, d, e], ¬ciCharMatch '`' x := by
    intro x hx
    rcases hmem x hx with rfl | rfl | hp
    · decide
    · decide
    · exact (plainChar_facts x hp).2.2.2.2.2.1
  have hell6 : Char.ofNat 0xE2 ∉ (['\\', 'u', a, b, d, e] : List Char) := by
    intro hm
    rcases hmem _ hm with h' | h' | hp
    · exact absurd h' (by decide)
    · exact absurd h' (by decide)
    · exact (plainChar_facts _ hp).2.2.2.2.2.2 rfl
  have hnb5 : ∀ y ∈ ['u', a, b, d, e], ¬(y = '\\') := by
    intro y hy
    rcases List.mem_cons.mp hy with rfl | hy
    · decide
    rcases List.mem_cons.mp hy with rfl | hy
    · exact fun hh => (plainChar_facts _ (plainChar_of_hex ha)).2.2.1 hh
    rcases List.mem_cons.mp hy with rfl | hy
    · exact fun hh => (plainChar_facts _ (plainChar_of_hex hb)).2.2.1 hh
    rcases List.mem_cons.mp hy with rfl | hy
    · exact fun hh => (plainChar_facts _ (plainChar_of_hex hd)).2.2.1 hh
    rcases List.mem_cons.mp hy with rfl | hy
    · exact fun hh => (plainChar_facts _ (plainChar_of_hex he)).2.2.1 hh
    · simp at hy
  have h1 : step1 ['\\', 'u', a, b, d, e] = ['\\', 'u', a, b, d, e] := by
    unfold step1
    rw [replaceAllCIDelete_id_of_head hbt6, replaceAllCIDelete_id_of_head hbt6,
      replaceAllCIDelete_id_of_head hbt6,
      replaceAllL_id_of_head (fun hm => hbt6 _ hm (Or.inl rfl)),
      stripLeadingJson_id hws6 (fun hp => absurd hp.1 (by decide)), jsTrimList_id hws6]
  have hprot6 : ∀ (x : Char) (rep : List Char), ¬(x = 'u') →
      replaceAllL ['\\', x] rep ['\\', 'u', a, b, d, e] = ['\\', 'u', a, b, d, e] := by
    intro x rep hx
    apply runScan_cons_none
    · exact litRule_none2 (fun hh => hx hh.2.symm)
    · exact scanStep_id_trigger (litRule ['\\', x] rep) (fun y => y = '\\')
        (fun c' t' hc' => litRule_none_head hc') hnb5 _ (Nat.le_refl _)
  have hp1 : replaceAllL "\\n".data "___ESCAPE___n".data ['\\', 'u', a, b, d, e]
      = ['\\', 'u', a, b, d, e] := hprot6 'n' _ (by decide)
  have hp2 : replaceAllL "\\r".data "___ESCAPE___r".data ['\\', 'u', a, b, d, e]
      = ['\\', 'u', a, b, d, e] := hprot6 'r' _ (by decide)
  have hp3 : replaceAllL "\\t".data "___ESCAPE___t".data ['\\', 'u', a, b, d, e]
      = ['\\', 'u', a, b, d, e] := hprot6 't' _ (by decide)
  have hp4 : replaceAllL "\\f".data "___ESCAPE___f".data ['\\', 'u', a, b, d, e]
      = ['\\', 'u', a, b, d, e] := hprot6 'f' _ (by decide)
  have hp5 : replaceAllL "\\b".data "___ESCAPE___b".data ['\\', 'u', a, b, d, e]
      = ['\\', 'u', a, b, d, e] := hprot6 'b' _ (by decide)
  have hp6 : replaceAllL "\\\"".data "___ESCAPE___quote".data ['\\', 'u', a, b, d, e]
      = ['\\', 'u', a, b, d, e] := hprot6 '"' _ (by decide)
  have hp7 : replaceAllL "\\\\".data "___ESCAPE___backslash".data ['\\', 'u', a, b, d, e]
      = ['\\', 'u', a, b, d, e] := hprot6 '\\' _ (by decide)
  have h2 : step2protect ['\\', 'u', a, b, d, e] = ['\\', 'u', a, b, d, e] := by
    unfold step2protect
    rw [hp1, hp2, hp3, hp4, hp5, hp6, hp7]
  have h3 : step2removeCtl ['\\', 'u', a, b, d, e] = ['\\', 'u', a, b, d, e] := by
    unfold step2removeCtl
    rw [map_id_of_eq (fun x hx => if_neg (hctl6 x hx))]
    rw [map_id_of_eq (fun x hx => if_neg (fun hh => hws6 x hx (by rw [hh]; decide)))]
    rw [map_id_of_eq (fun x hx => if_neg (fun hh => hws6 x hx (by rw [hh]; decide)))]
    rw [map_id_of_eq (fun x hx => if_neg (fun hh => hws6 x hx (by rw [hh]; decide)))]
  have h4 : step2restore ['\\', 'u', a, b, d, e] = ['\\', 'u', a, b, d, e] := by
    unfold step2restore
    rw [replaceAllL_id_of_head hus6, replaceAllL_id_of_head hus6,
      replaceAllL_id_of_head hus6, replaceAllL_id_of_head hus6,
      replaceAllL_id_of_head hus6, replaceAllL_id_of_head hus6,
      replaceAllL_id_of_head hus6]
  have h5 : step3 ['\\', 'u', a, b, d, e] = ['\\', 'u', a, b, d, e] := by
    unfold step3
    rw [quote_map_id, apos_map_id, replaceAllL_id_of_head hell6]
  have hsplit6 : hexEscSplit ['u', a, b, d, e] = some (a, b, d, e, []) := by
    show (if isHexDigit a ∧ isHexDigit b ∧ isHexDigit d ∧ isHexDigit e then
        some (a, b, d, e, ([] : List Char)) else none) = some (a, b, d, e, [])
    rw [if_pos ⟨ha, hb, hd, he⟩]
  have hcol6 : collectValidUnicodes ['\\', 'u', a, b, d, e]
      = (placeholder 0, [['\\', 'u', a, b, d, e]]) := by
    have e1 : collectAux 6 0 ['\\', 'u', a, b, d, e]
        = (placeholder 0 ++ (collectAux 5 1 ([] : List Char)).1,
          ['\\', 'u', a, b, d, e] :: (collectAux 5 1 ([] : List Char)).2) :=
      collectAux_cons_bs_some hsplit6
    show collectAux 6 0 ['\\', 'u', a, b, d, e] = (placeholder 0, [['\\', 'u', a, b, d, e]])
    rw [e1]
    rw [show collectAux 5 1 ([] : List Char) = ([], []) from rfl]
    simp
  have h6 : step4 ['\\', 'u', a, b, d, e] = ['\\', 'u', a, b, d, e] := by
    unfold step4
    rw [hcol6]
    dsimp only
    rw [show removeInvalidU (placeholder 0) = placeholder 0 from by decide]
    rw [show stripTrailingBackslashU (placeholder 0) = placeholder 0 from by decide]
    show replaceFirstL (placeholder 0) ['\\', 'u', a, b, d, e] (placeholder 0)
      = ['\\', 'u', a, b, d, e]
    rw [replaceFirstL_self (show (placeholder 0 : List Char) ≠ [] from by decide)]
  have hesc6 : removeInvalidEscapes ['\\', 'u', a, b, d, e] = ['\\', 'u', a, b, d, e] := by
    unfold removeInvalidEscapes
    apply runScan_cons_none
    · exact escapeRule_none_valid (by decide)
    · exact scanStep_id_trigger escapeRule (fun y => y = '\\')
        (fun c' t' hc' => escapeRule_none_head hc') hnb5 _ (Nat.le_refl _)
  have hhex6 : removeHexEscapes ['\\', 'u', a, b, d, e] = ['\\', 'u', a, b, d, e] := by
    unfold removeHexEscapes
    apply runScan_cons_none
    · exact hexEscRule_none_nonx (by decide)
    · exact scanStep_id_trigger hexEscRule (fun y => y = '\\')
        (fun c' t' hc' => hexEscRule_none_head hc') hnb5 _ (Nat.le_refl _)
  have hoct6 : removeOctalEscapes ['\\', 'u', a, b, d, e] = ['\\', 'u', a, b, d, e] := by
    unfold removeOctalEscapes
    apply runScan_cons_none
    · exact octEscRule_none_nonoct (by decide)
    · exact scanStep_id_trigger octEscRule (fun y => y = '\\')
        (fun c' t' hc' => octEscRule_none_head hc') hnb5 _ (Nat.le_refl _)
  have h7 : stepsTail ['\\', 'u', a, b, d, e] = ['\\', 'u', a, b, d, e] := by
    unfold stepsTail
    rw [removeTrailingCommas_id hcomma6, collapseWs_id hws6, hesc6, hhex6, hoct6,
      removeCtlFinal_id hctl6]
  unfold sanitizeList
  rw [h1, h2, h3, h4, h5, h6, h7]

end Sanitizer

namespace Sanitizer

/-- C7, counterexample.  The claim says a bare `\u` drops only the
backslash and keeps the following characters, but on `\uZ` the
`/\\u[^_]/g` match spans three characters — backslash, `u`, and `Z` —
and replaces them by a single `u`: the `Z` is eaten, not kept. -/
theorem sanitizeJsonString_invalid_u_cex :
    sanitizeJsonString "\\uZ" = "u" ∧
    (sanitizeJsonString "\\uZ").data ≠ claimInvalidURewrite 'Z' := by
  refine ⟨by decide, by decide⟩

/-- C7, amended.  A `\u` escape followed by exactly four hex digits is
kept unchanged.  A bare `\u` is not rewritten to `u` by dropping only the
backslash: `\u` followed by any non-underscore character becomes a single
`u` that also swallows the following character; a `\u` at the end of the
input becomes `u`; and `\u` followed by an underscore is left alone. -/
theorem sanitizeList_unicode_escape_rules :
    (∀ a b d e : Char, isHexDigit a → isHexDigit b → isHexDigit d → isHexDigit e →
        sanitizeList ['\\', 'u', a, b, d, e] = ['\\', 'u', a, b, d, e]) ∧
    (∀ c : Char, ¬(c = '_') → sanitizeList ['\\', 'u', c] = ['u']) ∧
    sanitizeJsonString "\\u" = "u" ∧
    sanitizeJsonString "\\u_" = "\\u_" := by
  refine ⟨?_, ?_, by decide, by decide⟩
  · intro a b d e ha hb hd he
    exact sanitizeList_valid_unicode ha hb hd he
  · intro c hcu
    exact sanitizeList_bsu3 hcu

/-- Witness for `sanitizeList_unicode_escape_rules` at the escape
`\u0041` and the fragment `\uZ`. -/
theorem sanitizeList_unicode_escape_rules_witness :
    (isHexDigit '0' ∧ isHexDigit '4' ∧ isHexDigit '1' ∧
      sanitizeList ['\\', 'u', '0', '0', '4', '1'] = ['\\', 'u', '0', '0', '4', '1']) ∧
    (¬(('Z' : Char) = '_') ∧ sanitizeList ['\\', 'u', 'Z'] = ['u']) :=
  ⟨⟨by decide, by decide, by decide,
      sanitizeList_unicode_escape_rules.1 '0' '0' '4' '1'
        (by decide) (by decide) (by decide) (by decide)⟩,
    ⟨by decide, sanitizeList_unicode_escape_rules.2.1 'Z' (by decide)⟩⟩

end Sanitizer
